import Mathlib

/-!
Verification of the `agentic` CLI orchestrator: a shallow embedding of its
token estimator, manifest parser and graph loader, dependency-ordered
topological sort, agent-reply parser, policy engine, and workspace
apply/undo state machine, together with theorems settling the frozen
claims about the natural-language specification.

Conventions of the embedding:
* Go strings are Lean `String`s; `len(s)` (bytes) is `String.utf8ByteSize`.
* Go maps are association lists (`List (key × value)`); Go map iteration
  order is modelled by list order (every theorem quantifies over the list,
  so any concrete iteration order is covered).
* File-system state is a total map `String → Option String` (`none` means
  the path does not exist); `os.WriteFile` is a pointwise update and never
  fails in the model.
* Fallible Go functions return `Except String α` carrying the exact
  formatted error message the Go code produces (timestamps omitted).
-/

namespace Agentic

/-- Decidable equality for `Except`, so concrete runs can be checked by
`decide`. -/
instance {ε α : Type} [DecidableEq ε] [DecidableEq α] : DecidableEq (Except ε α) :=
  fun x y =>
    match x, y with
    | .ok a, .ok b =>
      if h : a = b then isTrue (by rw [h]) else isFalse (by intro hh; cases hh; exact h rfl)
    | .error a, .error b =>
      if h : a = b then isTrue (by rw [h]) else isFalse (by intro hh; cases hh; exact h rfl)
    | .ok _, .error _ => isFalse (by intro hh; cases hh)
    | .error _, .ok _ => isFalse (by intro hh; cases hh)

/-- Go `unicode.IsSpace`: the Unicode White_Space code points. -/
def goIsSpace (c : Char) : Bool :=
  c = '\t' || c = '\n' || c = '\x0b' || c = '\x0c' || c = '\r' || c = ' ' ||
  c = '\x85' || c = '\xa0' || c = '\u1680' ||
  ('\u2000' ≤ c && c ≤ '\u200a') ||
  c = '\u2028' || c = '\u2029' || c = '\u202f' || c = '\u205f' || c = '\u3000'

/-- Go `strings.TrimSpace`: strip leading and trailing Unicode whitespace. -/
def goTrim (s : String) : String :=
  String.mk ((((s.toList.dropWhile goIsSpace).reverse.dropWhile goIsSpace).reverse))

/-- `s` starts with `p` (Go `strings.HasPrefix`). -/
def strStarts (s p : String) : Bool :=
  p.toList.isPrefixOf s.toList

/-- `s` ends with `p` (Go `strings.HasSuffix`). -/
def strEnds (s p : String) : Bool :=
  p.toList.isSuffixOf s.toList

/-- Go `strings.TrimPrefix p`: removes `p` from the front of `s` when present. -/
def trimPre (p s : String) : String :=
  if p.toList.isPrefixOf s.toList then String.mk (s.toList.drop p.toList.length) else s

/-- Go `strings.TrimSuffix p`: removes `p` from the end of `s` when present. -/
def trimSuf (p s : String) : String :=
  if p.toList.isSuffixOf s.toList then
    String.mk (s.toList.take (s.toList.length - p.toList.length))
  else s

/-- Split on a non-empty separator `c :: cs` (Go `strings.Split`); fuel is
one unit per character and never runs out when started at the length. -/
def splitChAux (c : Char) (cs : List Char) : Nat → List Char → List Char → List (List Char)
  | 0, acc, _ => [acc.reverse]
  | _, acc, [] => [acc.reverse]
  | fuel + 1, acc, l@(x :: rest) =>
    if (c :: cs).isPrefixOf l then
      acc.reverse :: splitChAux c cs fuel [] (rest.drop cs.length)
    else
      splitChAux c cs fuel (x :: acc) rest

/-- Go `strings.Split s sep` for non-empty `sep`. -/
def splitOnStr (s sep : String) : List String :=
  match sep.toList with
  | [] => [s]
  | c :: cs => (splitChAux c cs s.toList.length [] s.toList).map String.mk

/-- First index (in characters) at which `pat` occurs in `l`, scanning left
to right; models Go `strings.Index` (which reports a byte offset; slicing at
either offset yields the same suffix). -/
def idxOfSubAux (pat : List Char) : List Char → Nat → Option Nat
  | [], i => if pat = [] then some i else none
  | l@(_ :: rest), i =>
    if pat.isPrefixOf l then some i else idxOfSubAux pat rest (i + 1)

/-- Index of the first occurrence of `pat` in `s`, or `none`; Go `strings.Index`. -/
def idxOfSub (s pat : String) : Option Nat :=
  idxOfSubAux pat.toList s.toList 0

/-- Count of non-overlapping occurrences of the non-empty pattern
`c :: cs` in `l`, scanning left to right; models Go `strings.Count`.
The structural fuel is one unit per character; every step consumes at
least one character, so starting fuel `l.length` never runs out. -/
def subCountAux (c : Char) (cs : List Char) : Nat → List Char → Nat
  | 0, _ => 0
  | _, [] => 0
  | fuel + 1, l@(_ :: rest) =>
    if (c :: cs).isPrefixOf l then
      1 + subCountAux c cs fuel (rest.drop cs.length)
    else
      subCountAux c cs fuel rest

/-- Go `strings.Count s pat` (for the empty pattern Go returns the rune
count plus one; the code only counts non-empty markers). -/
def subCount (s pat : String) : Nat :=
  match pat.toList with
  | [] => s.length + 1
  | c :: cs => subCountAux c cs s.toList.length s.toList

/- ### Token estimation (package `token`) -/

/-- `token.EstimateString`: `0` for the empty string, else `(len(s)+3)/4`
(Go integer division; `len` counts bytes). -/
def estimateString (s : String) : Nat :=
  if s = "" then 0 else (s.utf8ByteSize + 3) / 4

/-- `token.EstimateStrings`: sum of the per-string estimates. -/
def estimateStrings (l : List String) : Nat :=
  (l.map estimateString).sum

/-- `token.EstimateMap`: sum of the estimates of the map's values (the Go
map is an association list here; iteration order does not affect the sum). -/
def estimateMap (m : List (String × String)) : Nat :=
  (m.map (fun p => estimateString p.2)).sum

/- ### Graph data model (package `graph`) -/

/-- `graph.NodeType`: `L` (leaf) or `C` (composite). -/
inductive NodeType where
  | leaf
  | composite
deriving DecidableEq, Repr

/-- `graph.NodeMeta` (NODE.meta.yaml contents); only the fields the core
reads are carried. Go ints are `Int` (they may be negative). -/
structure NodeMeta where
  purpose : String := ""
  invariants : List String := []
  nonGoals : List String := []
  tokenCap : Int := 0
  allowedPaths : List String := []
  checks : List String := []
  publicContract : List String := []
deriving DecidableEq, Repr

/-- `graph.Node`. `Children`/`Dependents` are resolved on demand from
`deps` via graph lookup rather than stored as pointers. -/
structure Node where
  id : String := ""
  type : NodeType := NodeType.leaf
  path : String := ""
  deps : List String := []
  tokens : Int := 0
  version : Int := 0
  contractHash : String := ""
  bundleHash : String := ""
  manifestHash : String := ""
  meta : Option NodeMeta := none
deriving DecidableEq, Repr

/- ### Bundle (package `bundle`) -/

/-- `bundle.Bundle`; `files` and `contracts` are `path → content` maps as
association lists. Disk-walking fields (`TotalSize`, `Hash`) are omitted:
no claim mentions them. -/
structure Bundle where
  nodeID : String := ""
  nodePath : String := ""
  files : List (String × String) := []
  contracts : List (String × String) := []
  meta : Option NodeMeta := none
deriving DecidableEq, Repr

/-- Token estimate of the optional metadata: `EstimateString(Purpose)` plus
`EstimateStrings(Invariants...)`, exactly the strings
`Bundle.EstimateTokens` feeds to the estimator. -/
def metaTokens : Option NodeMeta → Nat
  | none => 0
  | some m => estimateString m.purpose + estimateStrings m.invariants

/-- `Bundle.EstimateTokens`: sum the per-string estimates of files,
contracts and metadata, then apply the 1.1 formatting-overhead factor.
Go computes `int(float64(total) * 1.1)`, which truncates toward zero; for
every `total < 4·10^14` the IEEE-754 double computation yields exactly
`⌊11·total/10⌋` (the relative rounding error is far below the distance to
the next integer boundary), so the model uses `total * 11 / 10`. -/
def Bundle.estimateTokens (b : Bundle) : Nat :=
  (estimateMap b.files + estimateMap b.contracts + metaTokens b.meta) * 11 / 10

/-- Modelled from the spec: the claimed formula
`ceil((Σ|content_chars|) / 4) × 1.1`, reading the result as an integer by
truncation (`⌊·⌋` after the 1.1 factor). Kept separate from the source
definition for comparison. -/
def specEstimateTokensFloor (b : Bundle) : Nat :=
  let chars := (b.files.map (fun p => p.2.utf8ByteSize)).sum
    + (b.contracts.map (fun p => p.2.utf8ByteSize)).sum
    + (match b.meta with
       | none => 0
       | some m => m.purpose.utf8ByteSize + (m.invariants.map (·.utf8ByteSize)).sum)
  ((chars + 3) / 4) * 11 / 10

/-- Modelled from the spec: as `specEstimateTokensFloor` but rounding the
1.1 factor up instead of truncating, the other integer reading of the
spec's non-integral formula. -/
def specEstimateTokensCeil (b : Bundle) : Nat :=
  let chars := (b.files.map (fun p => p.2.utf8ByteSize)).sum
    + (b.contracts.map (fun p => p.2.utf8ByteSize)).sum
    + (match b.meta with
       | none => 0
       | some m => m.purpose.utf8ByteSize + (m.invariants.map (·.utf8ByteSize)).sum)
  (((chars + 3) / 4) * 11 + 9) / 10

/- ### Manifest parsing (package `graph`, `parseLine` and helpers) -/

/-- Go regexp `\s` (ASCII): space, tab, newline, carriage return, form feed. -/
def goSpace (c : Char) : Bool :=
  c = ' ' || c = '\t' || c = '\n' || c = '\r' || c = '\x0c'

/-- Go regexp `\w` (ASCII): letters, digits and underscore. -/
def isWordChar (c : Char) : Bool :=
  c.isAlphanum || c = '_'

/-- The anchored regexp `^([LC]):(\S+)` of `parseLine`: a kind letter, a
colon, and a maximal non-empty run of non-whitespace as the id. -/
def matchTypeID (line : String) : Option (NodeType × String) :=
  match line.toList with
  | 'L' :: ':' :: rest =>
    let run := rest.takeWhile (fun c => !goSpace c)
    if run = [] then none else some (NodeType.leaf, String.mk run)
  | 'C' :: ':' :: rest =>
    let run := rest.takeWhile (fun c => !goSpace c)
    if run = [] then none else some (NodeType.composite, String.mk run)
  | _ => none

/-- The value alternative `(\[[^\]]*\]|\S+)` of the key/value regexp: a
bracketed segment up to the first `]` when one exists, otherwise a
non-empty maximal run of non-whitespace; returns the value and the rest. -/
def matchKVValue (l : List Char) : Option (List Char × List Char) :=
  let nonSpaceRun :=
    let v := l.takeWhile (fun c => !goSpace c)
    if v = [] then none else some (v, l.drop v.length)
  match l with
  | '[' :: rest =>
    let inner := rest.takeWhile (· ≠ ']')
    match rest.drop inner.length with
    | ']' :: rest3 => some ('[' :: inner ++ [']'], rest3)
    | _ => nonSpaceRun
  | _ => nonSpaceRun

/-- All non-overlapping, leftmost matches of the key/value regexp
`(\w+)=(\[[^\]]*\]|\S+)` in the line, as (key, value) pairs, in order.
A failed attempt advances the scan by one character (equivalent to the
engine trying every later start). Fuel is one byte per character; each
step consumes at least one character, so it never runs out. -/
def findKVsAux : Nat → List Char → List (String × String)
  | 0, _ => []
  | _, [] => []
  | fuel + 1, l@(c :: rest) =>
    if isWordChar c then
      let w := l.takeWhile isWordChar
      match l.drop w.length with
      | '=' :: vrest =>
        match matchKVValue vrest with
        | some (v, rem) => (String.mk w, String.mk v) :: findKVsAux fuel rem
        | none => findKVsAux fuel rest
      | _ => findKVsAux fuel rest
    else
      findKVsAux fuel rest

/-- Key/value pairs of one manifest line. -/
def findKVs (line : String) : List (String × String) :=
  findKVsAux (line.toList.length + 1) line.toList

/-- Digits of a decimal numeral; `none` when empty or non-digit. -/
def digitsToNat (ds : List Char) : Option Nat :=
  if ds ≠ [] && ds.all Char.isDigit then
    some (ds.foldl (fun acc c => acc * 10 + (c.toNat - '0'.toNat)) 0)
  else
    none

/-- Go `strconv.Atoi`: optional sign then one or more digits and nothing
else (the int64 overflow error is not modelled; manifests carry small
numbers). -/
def atoi? (s : String) : Option Int :=
  match s.toList with
  | '+' :: ds => (digitsToNat ds).map Int.ofNat
  | '-' :: ds => (digitsToNat ds).map (fun n => -(n : Int))
  | ds => (digitsToNat ds).map Int.ofNat

/-- `graph.parseList`: strip one `[` and one `]`, split on commas, trim
whitespace, drop empty items. -/
def parseList (s : String) : List String :=
  let s := trimPre "[" s
  let s := trimSuf "]" s
  if s = "" then []
  else ((splitOnStr s ",").map goTrim).filter (· ≠ "")

/-- One `case` arm of `parseLine`'s key switch: unknown keys are ignored,
`toks`/`ver` only update the node when `strconv.Atoi` succeeds. -/
def applyKV (n : Node) (kv : String × String) : Node :=
  match kv.1 with
  | "path" => { n with path := kv.2 }
  | "deps" => { n with deps := parseList kv.2 }
  | "toks" =>
    match atoi? kv.2 with
    | some v => { n with tokens := v }
    | none => n
  | "ver" =>
    match atoi? kv.2 with
    | some v => { n with version := v }
    | none => n
  | "contract" => { n with contractHash := kv.2 }
  | "bundle" => { n with bundleHash := kv.2 }
  | "manifest" => { n with manifestHash := kv.2 }
  | _ => n

/-- `graph.parseLine`: parse the kind/id head, fold all key/value pairs of
the line over the node (later occurrences of a key overwrite earlier
ones), then require a non-empty path. -/
def parseLine (line : String) : Except String Node :=
  match matchTypeID line with
  | none => .error "invalid format: expected L:id or C:id"
  | some (ty, id) =>
    let node := (findKVs line).foldl applyKV { id := id, type := ty }
    if node.path = "" then .error ("missing path for node " ++ node.id)
    else .ok node

/- ### Graph loading (package `graph`, `Load` and helpers) -/

/-- `graph.Graph`: the id-keyed node map (an association list with unique
keys, since insertion overwrites) and the declaration-order id sequence.
`RootPath` is dropped: the model abstracts the metadata files behind a
`metaOf` lookup keyed by node path. -/
structure Graph where
  nodes : List (String × Node) := []
  order : List String := []
deriving DecidableEq, Repr

/-- `Graph.GetNode`. -/
def Graph.getNode (g : Graph) (id : String) : Option Node :=
  (g.nodes.find? (fun p => p.1 = id)).map (·.2)

/-- A node's resolved dependency references (`Node.Children`), computed on
demand: the dependencies that resolve in the graph. After a successful
load every dependency resolves. -/
def Graph.children (g : Graph) (n : Node) : List Node :=
  n.deps.filterMap g.getNode

/-- Go map insertion `g.Nodes[node.ID] = node`: replace in place or append. -/
def upsert : List (String × Node) → Node → List (String × Node)
  | [], n => [(n.id, n)]
  | (k, v) :: rest, n =>
    if k = n.id then (k, n) :: rest else (k, v) :: upsert rest n

/-- The line loop of `Load`: trim, skip blanks and `#` comments, parse each
remaining line, wrapping errors with the 1-based line number. -/
def parseLinesAux : List String → Nat → Except String (List Node)
  | [], _ => .ok []
  | l :: rest, i =>
    let t := goTrim l
    if t = "" || strStarts t "#" then parseLinesAux rest (i + 1)
    else
      match parseLine t with
      | .error e => .error ("line " ++ toString (i + 1) ++ ": " ++ e)
      | .ok n => (parseLinesAux rest (i + 1)).map (n :: ·)

/-- Nodes declared by a manifest's lines, in declaration order. -/
def parseManifestNodes (lines : List String) : Except String (List Node) :=
  parseLinesAux lines 0

/-- Build the node map and order sequence exactly as `Load`'s loop does:
`g.Nodes[node.ID] = node` (overwrite) and `g.Order = append(g.Order, node.ID)`. -/
def buildGraph (ns : List Node) : List (String × Node) × List String :=
  ns.foldl (fun acc n => (upsert acc.1 n, acc.2 ++ [n.id])) ([], [])

/-- `Graph.resolveDependencies`, reduced to its failure condition: every
dependency of every stored node must resolve (the `Children`/`Dependents`
pointers it fills are recomputed on demand here). -/
def resolveCheck (g : Graph) : Except String Unit :=
  match g.nodes.find? (fun p => p.2.deps.any (fun d => (g.getNode d).isNone)) with
  | some p =>
    match p.2.deps.find? (fun d => (g.getNode d).isNone) with
    | some d => .error ("node " ++ p.2.id ++ ": unknown dependency " ++ d)
    | none => .ok ()
  | none => .ok ()

/-- `Graph.loadNodeMeta`: attach `NODE.meta.yaml` contents to each node;
`metaOf` abstracts the per-node-path metadata file (absent file = `none`,
matching the nil `Meta` pointer). -/
def applyMeta (metaOf : String → Option NodeMeta) (m : List (String × Node)) :
    List (String × Node) :=
  m.map (fun p => (p.1, { p.2 with meta := metaOf p.2.path }))

/-- The recursive `hasCycle` closure of `Graph.validate`: marks the node
visited and on the recursion stack, recurses into unvisited resolved
dependencies (a left fold over the dependency list; once a cycle is found
the remaining iterations are skipped, matching Go's early `return true`),
reports a cycle when a dependency is already on the stack, and pops the
node from the stack on the way out. Fuel bounds the recursion depth; the
depth is at most the number of nodes because each nested call marks a
fresh node visited, so `validateGraph`'s fuel never runs out. -/
def hasCycleVisit (lookup : String → Option Node) :
    Nat → String → List String → List String → Bool × List String × List String
  | 0, _, v, r => (true, v, r)
  | fuel + 1, id, v, r =>
    let kids :=
      match lookup id with
      | some n => n.deps.filter (fun d => (lookup d).isSome)
      | none => []
    let res := kids.foldl
      (fun acc d =>
        if acc.1 then acc
        else if acc.2.1.contains d then
          if acc.2.2.contains d then (true, acc.2.1, acc.2.2) else acc
        else
          hasCycleVisit lookup fuel d acc.2.1 acc.2.2)
      (false, id :: v, id :: r)
    if res.1 then res else (false, res.2.1, (res.2.2).erase id)

/-- The outer loop of `Graph.validate`: start a DFS at every not-yet
visited node (Go iterates the map in unspecified order; the model uses the
stored list order — the cycle/no-cycle outcome is the same). -/
def validateLoop (g : Graph) : List String → List String → Except String Unit
  | [], _ => .ok ()
  | id :: rest, v =>
    if v.contains id then validateLoop g rest v
    else
      match hasCycleVisit g.getNode (g.nodes.length + 1) id v [] with
      | (true, _, _) => .error ("cycle detected involving node: " ++ id)
      | (false, v2, _) => validateLoop g rest v2

/-- `Graph.validate`: DFS three-colour cycle check over all nodes. -/
def validateGraph (g : Graph) : Except String Unit :=
  validateLoop g (g.nodes.map (·.1)) []

/-- `graph.Load`, modelled on the file's lines (the `os.Open`/scanner I/O
is outside the embedding): parse every line, build the map and order,
resolve dependencies, attach per-node metadata, and cycle-check. -/
def loadLines (lines : List String) (metaOf : String → Option NodeMeta) :
    Except String Graph := do
  let ns ← parseManifestNodes lines
  let (m, ord) := buildGraph ns
  let g0 : Graph := { nodes := m, order := ord }
  let _ ← resolveCheck g0
  let g1 : Graph := { nodes := applyMeta metaOf m, order := ord }
  let _ ← validateGraph g1
  .ok g1

/- ### Agent-reply parsing (package `brain`, `ExtractFiles` and helpers) -/

/-- `brain.Response`: extracted files (path, content) and the fallback
message. -/
structure Response where
  files : List (String × String) := []
  message : String := ""
deriving DecidableEq, Repr

/-- `brain.sanitizeOutput`: strip wrapping markdown fences, drop any
preamble before the first `=== FILE:`, trim surrounding whitespace. -/
def sanitizeOutput (raw : String) : String :=
  let raw := trimPre "```go\n" raw
  let raw := trimPre "```\n" raw
  let raw := trimSuf "\n```" raw
  let raw := trimSuf "```" raw
  let raw :=
    match idxOfSub raw "=== FILE:" with
    | some idx => if idx > 0 then String.mk (raw.toList.drop idx) else raw
    | none => raw
  goTrim raw

/-- `brain.detectTruncation`: compare the `=== FILE:` and `=== END FILE ===`
marker counts; on mismatch report both. `none` means not truncated. -/
def detectTruncation (content : String) : Option String :=
  let fileStarts := subCount content "=== FILE:"
  let fileEnded := subCount content "=== END FILE ==="
  if fileStarts ≠ fileEnded then
    some ("incomplete output: " ++ toString fileStarts ++ " files started, "
      ++ toString fileEnded ++ " ended")
  else none

/-- Split `l` at the first occurrence of `sep`: the part before and the
part after the separator. Fuel is one unit per character. -/
def splitAtFirstSub (sep : List Char) : Nat → List Char → Option (List Char × List Char)
  | 0, _ => none
  | fuel + 1, l =>
    if sep.isPrefixOf l then some ([], l.drop sep.length)
    else
      match l with
      | [] => none
      | x :: rest => (splitAtFirstSub sep fuel rest).map (fun pr => (x :: pr.1, pr.2))

/-- The lazy `(.+?) ===\n` part of the file-block regexp: a non-empty,
shortest path capture terminated by the first ` ===\n`. -/
def findSepAfterPath (after : List Char) : Option (List Char × List Char) :=
  match after with
  | [] => none
  | a :: rest =>
    (splitAtFirstSub (" ===\n".toList) (rest.length + 1) rest).map
      (fun pr => (a :: pr.1, pr.2))

/-- All matches of the regexp
`(?s)=== FILE: (.+?) ===\n(.*?)=== END FILE ===` (Go
`FindAllStringSubmatch`): leftmost, non-overlapping, with lazy captures —
the path runs to the first ` ===\n` after at least one character, the body
to the first `=== END FILE ===` after that. A start position whose match
cannot complete is skipped one character at a time, exactly as the engine
advances. -/
def extractBlocksAux : Nat → List Char → List (String × String)
  | 0, _ => []
  | _, [] => []
  | fuel + 1, l@(_ :: rest) =>
    if ("=== FILE: ".toList).isPrefixOf l then
      match findSepAfterPath (l.drop 10) with
      | some (path, afterSep) =>
        match splitAtFirstSub ("=== END FILE ===".toList) (afterSep.length + 1) afterSep with
        | some (body, rem) =>
          (String.mk path, String.mk body) :: extractBlocksAux fuel rem
        | none => extractBlocksAux fuel rest
      | none => extractBlocksAux fuel rest
    else extractBlocksAux fuel rest

/-- File blocks of a (sanitized) reply, in order. -/
def extractBlocks (s : String) : List (String × String) :=
  extractBlocksAux (s.toList.length + 1) s.toList

/-- `brain.validateGoSyntax`, parameterized by the external `go/parser`
check `goErr` (`some detail` when the content fails to parse): non-`.go`
paths always pass; failures carry the formatted message. -/
def validateGoSyntax (goErr : String → String → Option String)
    (path content : String) : Option String :=
  if strEnds path ".go" then
    (goErr path content).map (fun e => "syntax error in " ++ path ++ ": " ++ e)
  else none

/-- The per-match loop of `ExtractFiles`: trim the path, drop one trailing
newline from the body, reject the whole reply on the first syntax error. -/
def processBlocks (goErr : String → String → Option String) :
    List (String × String) → Except String (List (String × String))
  | [] => .ok []
  | (p, c) :: rest =>
    let path := goTrim p
    let content := trimSuf "\n" c
    match validateGoSyntax goErr path content with
    | some e => .error e
    | none => (processBlocks goErr rest).map ((path, content) :: ·)

/-- The line state machine of `brain.extractFromCodeBlocks`: a `### path`
header selects a current path when the path is one of the bundle's files;
a fence opens a code block (resetting the buffer), a bare ` ``` ` closes it
and emits a file when a path is selected and the buffer is non-empty. -/
def extractCBAux (bfiles : List (String × String)) :
    List String → String → Bool → String → List (String × String) → List (String × String)
  | [], _, _, _, acc => acc
  | line :: rest, currentPath, inCode, content, acc =>
    if strStarts line "### " then
      let path := goTrim (trimPre "### " line)
      let cp := if bfiles.any (fun f => f.1 = path) then path else currentPath
      extractCBAux bfiles rest cp inCode content acc
    else if strStarts line "```" && !inCode then
      extractCBAux bfiles rest currentPath true "" acc
    else if line = "```" && inCode then
      if currentPath ≠ "" && content ≠ "" then
        extractCBAux bfiles rest "" false content
          (acc ++ [(currentPath, trimSuf "\n" content)])
      else
        extractCBAux bfiles rest currentPath false content acc
    else if inCode then
      let content := if content ≠ "" then content ++ "\n" ++ line else line
      extractCBAux bfiles rest currentPath true content acc
    else
      extractCBAux bfiles rest currentPath inCode content acc

/-- `brain.extractFromCodeBlocks`. -/
def extractFromCodeBlocks (response : String) (bfiles : List (String × String)) :
    List (String × String) :=
  extractCBAux bfiles (splitOnStr response "\n") "" false "" []

/-- First syntax error among the fallback-extracted files, if any
(`ExtractFiles`' second validation loop). -/
def firstGoError (goErr : String → String → Option String) :
    List (String × String) → Option String
  | [] => none
  | (p, c) :: rest =>
    match validateGoSyntax goErr p c with
    | some e => some e
    | none => firstGoError goErr rest

/-- `brain.ExtractFiles` (the sanitizing variant): sanitize, fail on
truncation reporting both marker counts, extract the structured blocks
(validating Go syntax), fall back to markdown code blocks when none
matched, and when still empty return the sanitized reply as the message. -/
def extractFiles (goErr : String → String → Option String) (b : Bundle)
    (response : String) : Except String Response :=
  match detectTruncation (sanitizeOutput response) with
  | some msg => .error ("LLM output truncated: " ++ msg)
  | none =>
    match processBlocks goErr (extractBlocks (sanitizeOutput response)) with
    | .error e => .error e
    | .ok files =>
      if files = [] then
        match firstGoError goErr (extractFromCodeBlocks (sanitizeOutput response) b.files) with
        | some e => .error e
        | none =>
          if extractFromCodeBlocks (sanitizeOutput response) b.files = [] then
            .ok { files := [], message := sanitizeOutput response }
          else
            .ok { files := extractFromCodeBlocks (sanitizeOutput response) b.files,
                  message := "" }
      else .ok { files := files, message := "" }

/- ### Glob matching (Go `path/filepath.Match`, used by the policy engine) -/

/-- One item of a character class (Go's `getEsc`): rejects an empty
remainder, `-` and `]`, and unescapes `\\`. -/
def readClassItem : List Char → Option (Char × List Char)
  | [] => none
  | '-' :: _ => none
  | ']' :: _ => none
  | '\\' :: rest =>
    match rest with
    | [] => none
    | e :: rest2 => some (e, rest2)
  | c :: rest => some (c, rest)

/-- The ranges of a character class, which must be non-empty and closed by
`]`; `none` models `ErrBadPattern` (the callers drop the error, so a
malformed pattern simply never matches). Fuel is one unit per pattern
character. -/
def parseRanges : Nat → List Char → List (Char × Char) → Option (List (Char × Char) × List Char)
  | 0, _, _ => none
  | fuel + 1, l, acc =>
    match l with
    | ']' :: rest =>
      if acc ≠ [] then some (acc, rest)
      else none
    | _ =>
      match readClassItem l with
      | none => none
      | some (lo, rest1) =>
        match rest1 with
        | '-' :: rest2 =>
          match readClassItem rest2 with
          | none => none
          | some (hi, rest3) => parseRanges fuel rest3 (acc ++ [(lo, hi)])
        | _ => parseRanges fuel rest1 (acc ++ [(lo, lo)])

/-- A full `[...]` class after the opening bracket: optional `^` negation
then the ranges. -/
def parseClass (p : List Char) : Option (Bool × List (Char × Char) × List Char) :=
  match p with
  | '^' :: rest => (parseRanges (rest.length + 1) rest []).map (fun pr => (true, pr.1, pr.2))
  | _ => (parseRanges (p.length + 1) p []).map (fun pr => (false, pr.1, pr.2))

/-- Recursive glob matching with Go `filepath.Match` semantics on Unix:
`*` matches any run of non-separator characters, `?` one non-separator
character, `[...]` a character class (which may match `/`), `\\` escapes.
Malformed patterns match nothing. Fuel decreases on every call; pattern
length plus name length plus one always suffices, since every recursion
shortens their sum. -/
def matchGlob : Nat → List Char → List Char → Bool
  | 0, _, _ => false
  | fuel + 1, p, n =>
    match p, n with
    | [], [] => true
    | [], _ :: _ => false
    | '*' :: p2, _ =>
      matchGlob fuel p2 n ||
        (match n with
         | c :: n2 => c ≠ '/' && matchGlob fuel ('*' :: p2) n2
         | [] => false)
    | '?' :: p2, c :: n2 => c ≠ '/' && matchGlob fuel p2 n2
    | '?' :: _, [] => false
    | '\\' :: p2, n =>
      (match p2, n with
       | e :: p3, c :: n2 => e = c && matchGlob fuel p3 n2
       | _, _ => false)
    | '[' :: p2, c :: n2 =>
      (match parseClass p2 with
       | none => false
       | some (negated, ranges, p3) =>
         (ranges.any (fun r => r.1 ≤ c && c ≤ r.2)) ≠ negated && matchGlob fuel p3 n2)
    | '[' :: _, [] => false
    | c :: p2, d :: n2 => c = d && matchGlob fuel p2 n2
    | _ :: _, [] => false

/-- Go `filepath.Match pattern name` as a boolean (the error of a bad
pattern is dropped by every caller). -/
def goMatch (pattern name : String) : Bool :=
  matchGlob (pattern.toList.length + name.toList.length + 1) pattern.toList name.toList

/- ### Policy engine (package `policy`) -/

/-- `policy.Violation`. -/
structure Violation where
  policy : String
  severity : String
  message : String
deriving DecidableEq, Repr

/-- `policy.Result`. -/
structure PolicyResult where
  passed : Bool
  violations : List Violation
deriving DecidableEq, Repr

/-- Go `fmt` `%v` of a string slice: space-separated inside brackets. -/
def fmtStrSlice (l : List String) : String :=
  let rec go : List String → String
    | [] => ""
    | [x] => x
    | x :: rest => x ++ " " ++ go rest
  "[" ++ go l ++ "]"

/-- `policy.ExtractFilePaths`: the `+++ ` header paths of a unified diff,
stripped of a `b/` prefix, with `/dev/null` and duplicates dropped, in
first-seen order. -/
def extractFilePathsAux : List String → List String → List String
  | [], acc => acc
  | line :: rest, acc =>
    if strStarts line "+++ " then
      let path := trimPre "b/" (trimPre "+++ " line)
      if path ≠ "/dev/null" && !acc.contains path then
        extractFilePathsAux rest (acc ++ [path])
      else extractFilePathsAux rest acc
    else extractFilePathsAux rest acc

/-- `policy.ExtractFilePaths`. -/
def extractFilePaths (diff : String) : List String :=
  extractFilePathsAux (splitOnStr diff "\n") []

/-- `policy.MatchPath`: directory patterns (trailing `/`) by prefix, then
glob, then plain prefix. -/
def matchPath (file pattern : String) : Bool :=
  if strEnds pattern "/" then
    strStarts file pattern || strStarts file (trimSuf "/" pattern)
  else if goMatch pattern file then true
  else strStarts file pattern

/-- `policy.checkDiffScope`: every changed file, normalized relative to the
node path, must match one allowed path pattern; the rest are
error-severity violations. -/
def checkDiffScope (diff : String) (allowedPaths : List String) (nodePath : String) :
    List Violation :=
  (extractFilePaths diff).filterMap (fun file =>
    let relPath := if strStarts file (nodePath ++ "/") then trimPre (nodePath ++ "/") file else file
    if allowedPaths.any (fun ap => matchPath relPath ap) then none
    else some
      { policy := "diff_scope", severity := "error",
        message := "File " ++ file ++ " is outside allowed paths: " ++ fmtStrSlice allowedPaths })

/-- `policy.checkContractChanges`: a warning for every (changed file,
public-contract pattern) pair that matches. -/
def checkContractChanges (diff : String) (node : Node) : List Violation :=
  match node.meta with
  | none => []
  | some m =>
    if m.publicContract = [] then []
    else
      (extractFilePaths diff).flatMap (fun file =>
        m.publicContract.filterMap (fun contract =>
          if matchPath file contract then
            some
              { policy := "contract_change", severity := "warning",
                message := "Public contract file modified: " ++ file
                  ++ ". This may require updating dependents." }
          else none))

/-- `policy.Evaluate`: token budget (error), diff scope (errors), contract
changes (warnings), in that order; `passed` is false exactly when an
error-severity violation was recorded. -/
def Evaluate (node : Node) (b : Bundle) (diff : String) : PolicyResult :=
  let tokenViol : List Violation :=
    match node.meta with
    | some m =>
      if m.tokenCap > 0 && (b.estimateTokens : Int) > m.tokenCap then
        [{ policy := "token_budget", severity := "error",
           message := "Token count " ++ toString b.estimateTokens
             ++ " exceeds budget " ++ toString m.tokenCap }]
      else []
    | none => []
  let scopeViol : List Violation :=
    match node.meta with
    | some m =>
      if m.allowedPaths ≠ [] then checkDiffScope diff m.allowedPaths node.path else []
    | none => []
  let contractViol := checkContractChanges diff node
  { passed := tokenViol.isEmpty && scopeViol.isEmpty
      && contractViol.all (fun v => v.severity ≠ "error"),
    violations := tokenViol ++ scopeViol ++ contractViol }

/- ### Workspace state machine (package `workspace`) -/

/-- On-disk state: path to content, `none` when the file does not exist. -/
def FS : Type := String → Option String

/-- `workspace.WriteFile` (directory creation is implicit; writes do not
fail in the model). -/
def fsWrite (fs : FS) (path content : String) : FS :=
  fun q => if q = path then some content else fs q

/-- `os.ReadFile` with the `IsNotExist` branch of `ApplyChanges`: a missing
file reads as the empty string. -/
def readFileD (fs : FS) (p : String) : String :=
  (fs p).getD ""

/-- `workspace.FileChange`. -/
structure FileChange where
  path : String
  content : String
deriving DecidableEq, Repr

/-- `workspace.StagedChanges`. -/
structure StagedChanges where
  nodeID : String
  files : List FileChange
  message : String := ""
deriving DecidableEq, Repr

/-- `workspace.LastApplied` (timestamp omitted). -/
structure LastApplied where
  nodeID : String
  files : List FileChange
deriving DecidableEq, Repr

/-- `workspace.Checkpoint` (timestamp omitted). -/
structure Checkpoint where
  id : String
  commitSHA : String
  message : String := ""
deriving DecidableEq, Repr

/-- `workspace.Workspace`; `staged` is the `nodeID → StagedChanges` map as
a list (each entry's key is its `nodeID` field), in iteration order. -/
structure Workspace where
  currentNode : String := ""
  staged : List StagedChanges := []
  dirty : List (String × String) := []
  checkpoints : List Checkpoint := []
  lastApplied : Option LastApplied := none

/-- `workspace.buildFilePaths`: synthesize unified-diff headers from the
staged file paths for policy evaluation. -/
def buildFilePaths (files : List FileChange) : String :=
  files.foldl (fun acc f => acc ++ "--- a/" ++ f.path ++ "\n+++ b/" ++ f.path ++ "\n") ""

/-- `workspace.CreateCheckpoint`: a no-op outside a git repository; on a
`git rev-parse` failure `ApplyChanges` only prints a warning, so the
workspace is returned unchanged; otherwise append a checkpoint and keep the
last ten. -/
def createCheckpoint (isGit : Bool) (sha : Except String String) (ws : Workspace) : Workspace :=
  if !isGit then ws
  else
    match sha with
    | .error _ => ws
    | .ok s =>
      let cp : Checkpoint := { id := "cp-" ++ toString (ws.checkpoints.length + 1), commitSHA := s }
      let cps := ws.checkpoints ++ [cp]
      { ws with checkpoints := if cps.length > 10 then cps.drop (cps.length - 10) else cps }

/-- The policy-evaluation loop of `ApplyChanges`: per staged node, look the
node up, build its bundle, evaluate policies on the synthesized diff, and
collect error- and warning-severity violations across all nodes. -/
def evalLoop (g : Graph) (bundleOf : Node → Except String Bundle) :
    List StagedChanges → List Violation → List Violation →
    Except String (List Violation × List Violation)
  | [], errs, warns => .ok (errs, warns)
  | sc :: rest, errs, warns =>
    match g.getNode sc.nodeID with
    | none => .error ("unknown node: " ++ sc.nodeID)
    | some node =>
      match bundleOf node with
      | .error e => .error ("failed to build bundle for " ++ sc.nodeID ++ ": " ++ e)
      | .ok b =>
        let result := Evaluate node b (buildFilePaths sc.files)
        evalLoop g bundleOf rest
          (errs ++ result.violations.filter (fun v => v.severity = "error"))
          (warns ++ result.violations.filter (fun v => v.severity = "warning"))

/-- The aggregated `policy violations:` error text. -/
def violationsMsg (errs : List Violation) : String :=
  "policy violations:\n"
    ++ errs.foldl
      (fun acc v => acc ++ "  [" ++ v.severity ++ "] " ++ v.policy ++ ": " ++ v.message ++ "\n")
      ""

/-- `workspace.Validate`, parameterized by the external `gofmt -e` check
(`some detail` when gofmt rejects the content): non-`.go` paths pass. -/
def wsValidate (gofmtErr : String → String → Option String) (path content : String) :
    Option String :=
  if strEnds path ".go" then
    (gofmtErr path content).map (fun e => "syntax error in " ++ path ++ ": " ++ e)
  else none

/-- The inner write loop of `ApplyChanges`: validate then write each file;
on a validation failure the error is returned with the files written so
far still on disk. -/
def writeFiles (gofmtErr : String → String → Option String) :
    List FileChange → FS → Except String Unit × FS
  | [], fs => (.ok (), fs)
  | f :: rest, fs =>
    match wsValidate gofmtErr f.path f.content with
    | some e => (.error ("validation failed for " ++ f.path ++ ": " ++ e), fs)
    | none => writeFiles gofmtErr rest (fsWrite fs f.path f.content)

/-- The outer write loop of `ApplyChanges` over all staged nodes. -/
def writeAllStaged (gofmtErr : String → String → Option String) :
    List StagedChanges → FS → Except String Unit × FS
  | [], fs => (.ok (), fs)
  | sc :: rest, fs =>
    match writeFiles gofmtErr sc.files fs with
    | (.ok _, fs2) => writeAllStaged gofmtErr rest fs2
    | (.error e, fs2) => (.error e, fs2)

/-- `Workspace.ApplyChanges`. Parameters model the effectful collaborators:
`graphLoad` the result of `graph.Load("GRAPH.manifest")`, `bundleOf` of
`bundle.Build`, `gofmtErr` the external gofmt syntax check, `isGit`/`sha`
the git state for checkpointing. Stages: guard against an empty staged
map, load the graph, evaluate policies across all staged nodes, abort with
the aggregated message when any error-severity violation exists (warnings
only print), checkpoint, snapshot pre-images of every staged path (missing
files snapshot as empty), record `lastApplied`, then validate and write
each file; on success clear the staged map. The post-write `go build` only
prints and is omitted, as is `Save` (persistence I/O). -/
def applyChanges (graphLoad : Except String Graph) (bundleOf : Node → Except String Bundle)
    (gofmtErr : String → String → Option String) (isGit : Bool) (sha : Except String String)
    (ws : Workspace) (fs : FS) : Except String Unit × Workspace × FS :=
  if ws.staged = [] then (.error "no staged changes to apply", ws, fs)
  else
    match graphLoad with
    | .error e => (.error ("failed to load graph: " ++ e), ws, fs)
    | .ok g =>
      match evalLoop g bundleOf ws.staged [] [] with
      | .error e => (.error e, ws, fs)
      | .ok (errs, _) =>
        if errs ≠ [] then (.error (violationsMsg errs), ws, fs)
        else
          let ws1 := createCheckpoint isGit sha ws
          let snapshot := ws.staged.flatMap
            (fun sc => sc.files.map (fun f => FileChange.mk f.path (readFileD fs f.path)))
          let lastID := (ws.staged.getLast?).elim "" (fun sc => sc.nodeID)
          let ws2 := { ws1 with lastApplied := some (LastApplied.mk lastID snapshot) }
          match writeAllStaged gofmtErr ws.staged fs with
          | (.error e, fs2) => (.error e, ws2, fs2)
          | (.ok _, fs2) => (.ok (), { ws2 with staged := [] }, fs2)

/-- `Workspace.Undo`: restore every pre-image recorded by the last apply,
then clear `lastApplied`; with nothing to undo, fail. -/
def undo (ws : Workspace) (fs : FS) : Except String Unit × Workspace × FS :=
  match ws.lastApplied with
  | none => (.error "no changes to undo", ws, fs)
  | some la =>
    let fs2 := la.files.foldl (fun acc f => fsWrite acc f.path f.content) fs
    (.ok (), { ws with lastApplied := none }, fs2)

/- ### Topological sort (package `graph`, `Graph.TopologicalSort`) -/

/-- The mutable state of the `visit` closure: the in-progress set `temp`,
the `visited` set, and the output sequence. Go appends to `sorted` and
marks `visited` in the same step, so `visited` is always exactly the
(reversed) id list of `sorted`. -/
structure DfsState where
  temp : List String := []
  visited : List String := []
  sorted : List Node := []
deriving DecidableEq, Repr

/-- The recursive `visit` closure of `TopologicalSort`: error on a node in
`temp` (back-edge), skip a visited node, otherwise push onto `temp`, visit
every resolved dependency in order (the left fold propagates the first
error), pop from `temp`, mark visited and append to the output. Fuel
bounds the recursion depth, which never exceeds the number of nodes
(members of `temp` are distinct), so the fuel `topologicalSort` passes
never runs out; exhaustion reports a cycle as the Go recursion could only
loop on one. -/
def visitT (g : Graph) : Nat → Node → DfsState → Except String DfsState
  | 0, node, _ => .error ("cycle detected at node: " ++ node.id)
  | fuel + 1, node, st =>
    if st.temp.contains node.id then .error ("cycle detected at node: " ++ node.id)
    else if st.visited.contains node.id then .ok st
    else
      let st1 : DfsState := { st with temp := node.id :: st.temp }
      match (g.children node).foldl
          (fun (acc : Except String DfsState) dep =>
            match acc with
            | .error e => .error e
            | .ok s => visitT g fuel dep s)
          (.ok st1) with
      | .error e => .error e
      | .ok st2 =>
        .ok { temp := st2.temp.erase node.id,
              visited := node.id :: st2.visited,
              sorted := st2.sorted ++ [node] }

/-- The outer loop of `TopologicalSort`: visit the nodes in original
declaration order for determinism. After a successful load every order
entry is a map key; a dangling id is skipped (Go would dereference nil). -/
def topoLoop (g : Graph) (fuel : Nat) : List String → DfsState → Except String DfsState
  | [], st => .ok st
  | id :: rest, st =>
    match g.getNode id with
    | some node =>
      match visitT g fuel node st with
      | .error e => .error e
      | .ok st2 => topoLoop g fuel rest st2
    | none => topoLoop g fuel rest st

/-- `Graph.TopologicalSort`. -/
def topologicalSort (g : Graph) : Except String (List Node) :=
  (topoLoop g (g.nodes.length + 1) g.order {}).map (fun st => st.sorted)

/- ### Small auxiliary definitions used by the claim statements -/

/-- Whether an `Except` is a success. -/
def exceptIsOk : Except ε α → Bool
  | .ok _ => true
  | .error _ => false

/-- The paths written by an apply of the given staged map, in write order. -/
def writtenPaths (staged : List StagedChanges) : List String :=
  staged.flatMap (fun sc => sc.files.map (fun f => f.path))

/-- A bundle of three one-byte files (no contracts, no metadata). -/
def c6Bundle : Bundle := { files := [("a", "x"), ("b", "y"), ("c", "z")] }

/-- A manifest declaring the id `a` twice with different paths. -/
def c7Lines : List String :=
  ["L:a path=p1 deps=[] toks=1 ver=1", "L:a path=p2 deps=[] toks=2 ver=1"]

/-- The nodes `c7Lines` declares. -/
def c7Nodes : List Node :=
  [{ id := "a", path := "p1", tokens := 1, version := 1 },
   { id := "a", path := "p2", tokens := 2, version := 1 }]

/-- The graph `c7Lines` loads to: the map keeps the second declaration,
the order lists the id twice. -/
def c7G : Graph :=
  { nodes := [("a", { id := "a", path := "p2", tokens := 2, version := 1 })],
    order := ["a", "a"] }

/-- A manifest declaring a single composite node. -/
def c4Lines : List String := ["C:api path=src/api deps=[] toks=1 ver=1"]

/-- The nodes `c4Lines` declares. -/
def c4Nodes : List Node :=
  [{ id := "api", type := NodeType.composite, path := "src/api", tokens := 1, version := 1 }]

/-- The graph `c4Lines` loads to: just the composite node itself. -/
def c4G : Graph :=
  { nodes := [("api",
      { id := "api", type := NodeType.composite, path := "src/api", tokens := 1, version := 1 })],
    order := ["api"] }

/-- The node `parseLine` produces for a line with unparsable `toks=` and
`ver=` values. -/
def c10Node : Node := { id := "a", path := "p" }

/-- A node of the C1 scenario: write scope restricted to `src/api/**`. -/
def c1Node : Node :=
  { id := "api", path := "src/api", meta := some { allowedPaths := ["src/api/**"] } }

/-- The graph of the C1 scenario. -/
def c1G : Graph := { nodes := [("api", c1Node)], order := ["api"] }

/-- The staged change of the C1 scenario: one file outside the allowed scope. -/
def c1Sc : StagedChanges := { nodeID := "api", files := [⟨"src/other/z.go", "x"⟩] }

/-- The workspace of the C1 scenario. -/
def c1Ws : Workspace := { staged := [c1Sc] }

/-- An empty disk for the C1 scenario. -/
def c1Fs : FS := fun _ => none

/-- The snapshot `ApplyChanges` records for `undo`: one pre-image per
staged file occurrence, in staging order; a missing file snapshots as `""`. -/
def applySnapshot (staged : List StagedChanges) (fs : FS) : List FileChange :=
  staged.flatMap (fun sc => sc.files.map (fun f => FileChange.mk f.path (readFileD fs f.path)))

/-- The id recorded in `LastApplied`: the last iterated staged node. -/
def applyLastID (staged : List StagedChanges) : String :=
  (staged.getLast?).elim "" (fun sc => sc.nodeID)

/-- The workspace value `ApplyChanges` builds just before writing. -/
def applyWs2 (isGit : Bool) (sha : Except String String) (ws : Workspace) (fs : FS) :
    Workspace :=
  { createCheckpoint isGit sha ws with
    lastApplied := some (LastApplied.mk (applyLastID ws.staged) (applySnapshot ws.staged fs)) }

/-- The graph of the undo round-trip scenarios: one leaf node `n`. -/
def c3G : Graph := { nodes := [("n", { id := "n", path := "p" })], order := ["n"] }

/-- Staged change overwriting `foo.go` with `B`. -/
def c3Ws : Workspace := { staged := [{ nodeID := "n", files := [⟨"foo.go", "B"⟩] }] }

/-- A disk where `foo.go` contains `A`. -/
def c3Fs : FS := fun p => if p = "foo.go" then some "A" else none

/-- Staged change creating the previously missing `new.go`. -/
def c9Ws : Workspace := { staged := [{ nodeID := "n", files := [⟨"new.go", "X"⟩] }] }

/-- An empty disk. -/
def c9Fs : FS := fun _ => none

/-- Acyclicity of a loaded graph, phrased as the existence of a ranking
function that strictly decreases along dependencies and is bounded by the
node count. For a finite dependency graph this is exactly acyclicity (take
the longest dependency chain length as the rank). -/
def AcyclicRank (g : Graph) : Prop :=
  ∃ rank : String → Nat,
    (∀ k n, g.getNode k = some n → ∀ d ∈ n.deps, rank d < rank k) ∧
    (∀ k, (g.getNode k).isSome → rank k < g.nodes.length)

/-- The invariant of the topological-sort DFS state: `visited` is exactly
the (reversed) id list of the output, output ids are distinct, every
output node is the graph's node for its id, and every dependency of an
output node appears strictly before it. -/
def TopoInv (g : Graph) (st : DfsState) : Prop :=
  st.visited = (st.sorted.map Node.id).reverse ∧
  (st.sorted.map Node.id).Nodup ∧
  (∀ n ∈ st.sorted, g.getNode n.id = some n) ∧
  (∀ i (hi : i < st.sorted.length), ∀ d ∈ (st.sorted[i]).deps,
    d ∈ (st.sorted.take i).map Node.id)

/-- A two-node manifest: `b` depends on `a`. -/
def c5Lines : List String :=
  ["L:a path=p deps=[] toks=1 ver=1", "L:b path=q deps=[a] toks=1 ver=1"]

/-- The node `a` of the C5 scenario. -/
def c5Na : Node := { id := "a", path := "p", tokens := 1, version := 1 }

/-- The node `b` of the C5 scenario. -/
def c5Nb : Node := { id := "b", path := "q", deps := ["a"], tokens := 1, version := 1 }

/-- The graph `c5Lines` loads to. -/
def c5G : Graph := { nodes := [("a", c5Na), ("b", c5Nb)], order := ["a", "b"] }

/-- A rank function witnessing acyclicity of `c5G`. -/
def c5Rank : String → Nat := fun id => if id = "b" then 1 else 0

/- ### Claim theorems -/

/-- Per-string estimate as a plain ceiling: the empty-string special case
coincides with `⌈0/4⌉ = 0`. -/
theorem estimateString_eq (s : String) : estimateString s = (s.utf8ByteSize + 3) / 4 := by
  unfold estimateString
  split
  · rename_i h
    subst h
    rfl
  · rfl

/-- **C6, counterexample.** For the bundle of three one-byte files the code
returns `⌊(1+1+1)·1.1⌋ = 3`, while the spec's formula
`ceil((Σ chars)/4) × 1.1 = ceil(3/4) × 1.1 = 1.1` is not `3` under either
integer reading (truncation gives 1, rounding up gives 2): the code sums
per-string ceilings, it does not take the ceiling of the total. -/
theorem c6_counterexample :
    Bundle.estimateTokens c6Bundle ≠ specEstimateTokensFloor c6Bundle ∧
    Bundle.estimateTokens c6Bundle ≠ specEstimateTokensCeil c6Bundle ∧
    Bundle.estimateTokens c6Bundle = 3 ∧
    specEstimateTokensFloor c6Bundle = 1 ∧
    specEstimateTokensCeil c6Bundle = 2 := by
  decide

/-- **C6, amended.** `estimate_tokens` equals
`⌊(Σ over every string s of ⌈|s|/4⌉) × 1.1⌋`: the per-string token
ceilings of all file contents, contract contents, the meta purpose and
each meta invariant are summed first, and the 1.1 overhead factor is
applied to that sum with the result truncated to an integer. -/
theorem c6_amended (b : Bundle) :
    Bundle.estimateTokens b =
      ((b.files.map (fun p => (p.2.utf8ByteSize + 3) / 4)).sum
        + (b.contracts.map (fun p => (p.2.utf8ByteSize + 3) / 4)).sum
        + (match b.meta with
           | none => 0
           | some m => (m.purpose.utf8ByteSize + 3) / 4
               + (m.invariants.map (fun s => (s.utf8ByteSize + 3) / 4)).sum)) * 11 / 10 := by
  have hfe : estimateString = fun s => (s.utf8ByteSize + 3) / 4 := funext estimateString_eq
  unfold Bundle.estimateTokens metaTokens estimateMap estimateStrings
  cases b.meta <;> simp [hfe]

/-- `applyKV` only changes `tokens` on a `toks` key with a parsable value. -/
theorem foldl_applyKV_tokens (kvs : List (String × String)) (n : Node)
    (h : ∀ kv ∈ kvs, kv.1 = "toks" → atoi? kv.2 = none) :
    (kvs.foldl applyKV n).tokens = n.tokens := by
  induction kvs generalizing n with
  | nil => rfl
  | cons kv rest ih =>
    have hkv := h kv (by simp)
    have hrest : ∀ kv' ∈ rest, kv'.1 = "toks" → atoi? kv'.2 = none :=
      fun kv' hm => h kv' (by simp [hm])
    rw [List.foldl_cons, ih _ hrest]
    unfold applyKV
    split
    · rfl
    · rfl
    · rename_i hk
      rw [hkv hk]
    · cases atoi? kv.2 <;> rfl
    · rfl
    · rfl
    · rfl
    · rfl

/-- `applyKV` only changes `version` on a `ver` key with a parsable value. -/
theorem foldl_applyKV_version (kvs : List (String × String)) (n : Node)
    (h : ∀ kv ∈ kvs, kv.1 = "ver" → atoi? kv.2 = none) :
    (kvs.foldl applyKV n).version = n.version := by
  induction kvs generalizing n with
  | nil => rfl
  | cons kv rest ih =>
    have hkv := h kv (by simp)
    have hrest : ∀ kv' ∈ rest, kv'.1 = "ver" → atoi? kv'.2 = none :=
      fun kv' hm => h kv' (by simp [hm])
    rw [List.foldl_cons, ih _ hrest]
    unfold applyKV
    split
    · rfl
    · rfl
    · cases atoi? kv.2 <;> rfl
    · rename_i hk
      rw [hkv hk]
    · rfl
    · rfl
    · rfl
    · rfl

/-- **C10.** A manifest line whose `toks=` (resp. `ver=`) values are all
present-but-unparsable is not rejected for that reason: whenever the line
parses to a node, the `Tokens` (resp. `Version`) field is the zero
default, because `parseLine` silently ignores a failing `strconv.Atoi`. -/
theorem c10_invalid_int_defaults_zero (line : String) (node : Node)
    (hok : parseLine line = .ok node) :
    ((∀ kv ∈ findKVs line, kv.1 = "toks" → atoi? kv.2 = none) → node.tokens = 0) ∧
    ((∀ kv ∈ findKVs line, kv.1 = "ver" → atoi? kv.2 = none) → node.version = 0) := by
  unfold parseLine at hok
  cases hmt : matchTypeID line with
  | none => rw [hmt] at hok; exact absurd hok (by simp)
  | some tid =>
    rw [hmt] at hok
    by_cases hp : ((findKVs line).foldl applyKV { id := tid.2, type := tid.1 }).path = ""
    · simp only [hp, if_pos rfl] at hok
      exact absurd hok (by simp)
    · simp only [if_neg hp] at hok
      have hnode : node = (findKVs line).foldl applyKV { id := tid.2, type := tid.1 } := by
        cases hok
        rfl
      constructor
      · intro htoks
        rw [hnode, foldl_applyKV_tokens _ _ htoks]
      · intro hver
        rw [hnode, foldl_applyKV_version _ _ hver]

/-- **C10, witness.** The line `L:a path=p toks=abc ver=xyz` parses
successfully (it is not rejected), and both fields are zero. -/
theorem c10_witness :
    parseLine "L:a path=p toks=abc ver=xyz" = .ok c10Node ∧
    c10Node.tokens = 0 ∧ c10Node.version = 0 :=
  ⟨by decide,
   (c10_invalid_int_defaults_zero "L:a path=p toks=abc ver=xyz" c10Node (by decide)).1
     (by decide),
   (c10_invalid_int_defaults_zero "L:a path=p toks=abc ver=xyz" c10Node (by decide)).2
     (by decide)⟩

/-- On a marker-count mismatch `detectTruncation` reports both counts. -/
theorem detectTruncation_of_ne (content : String)
    (h : subCount content "=== FILE:" ≠ subCount content "=== END FILE ===") :
    detectTruncation content =
      some ("incomplete output: " ++ toString (subCount content "=== FILE:")
        ++ " files started, " ++ toString (subCount content "=== END FILE ===") ++ " ended") := by
  simp only [detectTruncation]
  rw [if_pos h]

/-- With equal marker counts `detectTruncation` reports nothing. -/
theorem detectTruncation_of_eq (content : String)
    (h : subCount content "=== FILE:" = subCount content "=== END FILE ===") :
    detectTruncation content = none := by
  simp only [detectTruncation]
  rw [if_neg (by simp [h])]

/-- **C2.** A reply whose sanitized text has differing `=== FILE:` and
`=== END FILE ===` counts is rejected with the message carrying both
counts; the error return means no files are extracted. -/
theorem c2_truncation_rejected (goErr : String → String → Option String) (b : Bundle)
    (reply : String)
    (h : subCount (sanitizeOutput reply) "=== FILE:"
      ≠ subCount (sanitizeOutput reply) "=== END FILE ===") :
    extractFiles goErr b reply =
      .error ("LLM output truncated: "
        ++ ("incomplete output: " ++ toString (subCount (sanitizeOutput reply) "=== FILE:")
          ++ " files started, "
          ++ toString (subCount (sanitizeOutput reply) "=== END FILE ===") ++ " ended")) := by
  unfold extractFiles
  rw [detectTruncation_of_ne _ h]

/-- **C2, witness.** The spec's S4 reply (one `=== FILE:`, no end marker)
fails with the `1 files started, 0 ended` message. -/
theorem c2_truncation_witness :
    extractFiles (fun _ _ => none) {} "=== FILE: x.go ===\npackage x\n" =
      .error "LLM output truncated: incomplete output: 1 files started, 0 ended" :=
  (c2_truncation_rejected (fun _ _ => none) {} "=== FILE: x.go ===\npackage x\n"
    (by decide)).trans (by decide)

/-- **C8, counterexample.** For the raw reply `"```\nhello\n```"` neither
extraction yields a file, yet the returned message is the *sanitized* text
`"hello"`, not the original raw reply: the claim's `message = raw reply`
fails whenever sanitization changes the text. -/
theorem c8_counterexample :
    extractFiles (fun _ _ => none) {} "```\nhello\n```" =
      .ok { files := [], message := "hello" } ∧
    extractBlocks (sanitizeOutput "```\nhello\n```") = [] ∧
    extractFromCodeBlocks (sanitizeOutput "```\nhello\n```") [] = [] ∧
    "hello" ≠ "```\nhello\n```" := by
  decide

/-- **C8, amended.** When the sanitized reply is not truncated and neither
the primary block extraction nor the markdown fallback yields a file,
parsing succeeds with an empty file list and the message equal to the
*sanitized* reply text. -/
theorem c8_no_files_message (goErr : String → String → Option String) (b : Bundle)
    (reply : String)
    (hcount : subCount (sanitizeOutput reply) "=== FILE:"
      = subCount (sanitizeOutput reply) "=== END FILE ===")
    (hblocks : extractBlocks (sanitizeOutput reply) = [])
    (hfb : extractFromCodeBlocks (sanitizeOutput reply) b.files = []) :
    extractFiles goErr b reply = .ok { files := [], message := sanitizeOutput reply } := by
  unfold extractFiles
  rw [detectTruncation_of_eq _ hcount, hblocks, hfb]
  rfl

/-- **C8, witness.** A plain-text reply with no markers at all parses to
zero files with itself as the message. -/
theorem c8_no_files_witness :
    extractFiles (fun _ _ => none) {} "hello" = .ok { files := [], message := "hello" } :=
  (c8_no_files_message (fun _ _ => none) {} "hello" (by decide) (by decide)
    (by decide)).trans (by decide)

/-- Lookup after a Go map insert: the inserted node shadows the old entry
for its id and nothing else changes. -/
theorem find?_upsert (m : List (String × Node)) (n : Node) (id : String) :
    ((upsert m n).find? (fun p => p.1 = id)).map Prod.snd =
      if n.id = id then some n else (m.find? (fun p => p.1 = id)).map Prod.snd := by
  induction m with
  | nil =>
    by_cases h : n.id = id <;> simp [upsert, List.find?, h]
  | cons kv rest ih =>
    obtain ⟨k, v⟩ := kv
    unfold upsert
    by_cases hk : k = n.id
    · rw [if_pos hk]
      subst hk
      by_cases hid : n.id = id
      · rw [if_pos hid]
        rw [List.find?_cons_of_pos _ (by simp [hid])]
        rfl
      · rw [if_neg hid]
        rw [List.find?_cons_of_neg _ (by simp [hid]), List.find?_cons_of_neg _ (by simp [hid])]
    · rw [if_neg hk]
      by_cases hid : k = id
      · subst hid
        rw [List.find?_cons_of_pos _ (by simp), List.find?_cons_of_pos _ (by simp)]
        have hne : ¬n.id = k := fun h => hk h.symm
        rw [if_neg hne]
      · rw [List.find?_cons_of_neg _ (by simp [hid]), List.find?_cons_of_neg _ (by simp [hid])]
        exact ih

/-- The order component of the `Load` fold: every declared id, in order. -/
theorem buildGraph_fold_order (ns : List Node) :
    ∀ (m : List (String × Node)) (ord : List String),
      (ns.foldl (fun acc n => (upsert acc.1 n, acc.2 ++ [n.id])) (m, ord)).2
        = ord ++ ns.map Node.id := by
  induction ns with
  | nil => intro m ord; simp
  | cons n rest ih =>
    intro m ord
    rw [List.foldl_cons]
    rw [ih (upsert m n) (ord ++ [n.id])]
    simp

/-- The map component of the `Load` fold: lookup finds the last
declaration of an id, falling back to the initial map. -/
theorem buildGraph_fold_lookup (ns : List Node) :
    ∀ (m : List (String × Node)) (ord : List String) (id : String),
      (((ns.foldl (fun acc n => (upsert acc.1 n, acc.2 ++ [n.id])) (m, ord)).1.find?
          (fun p => p.1 = id)).map Prod.snd) =
        match ns.reverse.find? (fun n => n.id = id) with
        | some n => some n
        | none => (m.find? (fun p => p.1 = id)).map Prod.snd := by
  induction ns with
  | nil => intro m ord id; simp
  | cons n rest ih =>
    intro m ord id
    rw [List.foldl_cons]
    rw [ih (upsert m n) (ord ++ [n.id]) id]
    rw [List.reverse_cons, List.find?_append, find?_upsert]
    cases hr : rest.reverse.find? (fun x => x.id = id) with
    | some x => simp [Option.or]
    | none =>
      by_cases hn : n.id = id
      · simp [Option.or, List.find?, hn]
      · simp [Option.or, List.find?, hn]

/-- Metadata attachment is transparent to lookup. -/
theorem find?_applyMeta (mo : String → Option NodeMeta) (m : List (String × Node)) (id : String) :
    (((applyMeta mo m).find? (fun p => p.1 = id)).map Prod.snd) =
      ((m.find? (fun p => p.1 = id)).map Prod.snd).map
        (fun n => { n with meta := mo n.path }) := by
  induction m with
  | nil => simp [applyMeta]
  | cons kv rest ih =>
    obtain ⟨k, v⟩ := kv
    by_cases hid : k = id
    · subst hid
      rw [applyMeta, List.map_cons, List.find?_cons_of_pos _ (by simp),
        List.find?_cons_of_pos _ (by simp)]
      rfl
    · rw [applyMeta, List.map_cons, List.find?_cons_of_neg _ (by simp [hid]),
        List.find?_cons_of_neg _ (by simp [hid])]
      exact ih

/-- Inversion of a successful `loadLines`: the graph is exactly the fold of
the parsed nodes with the metadata attached. -/
theorem loadLines_inversion (lines : List String) (metaOf : String → Option NodeMeta)
    (g : Graph) (h : loadLines lines metaOf = .ok g) :
    ∃ ns, parseManifestNodes lines = .ok ns ∧
      g.nodes = applyMeta metaOf (buildGraph ns).1 ∧ g.order = (buildGraph ns).2 ∧
      resolveCheck { nodes := (buildGraph ns).1, order := (buildGraph ns).2 } = .ok () := by
  unfold loadLines at h
  simp only [Bind.bind, Except.bind] at h
  split at h
  · exact absurd h (by simp)
  · rename_i ns2 hp2
    split at h
    · exact absurd h (by simp)
    · rename_i u hres
      split at h
      · exact absurd h (by simp)
      · cases h
        cases u
        exact ⟨ns2, hp2, rfl, rfl, hres⟩

/-- **C7, counterexample.** The duplicate-id manifest `c7Lines` loads to a
graph whose map holds the *second* declaration of `a` (path `p2`, not the
first occurrence's `p1`), and whose order sequence lists `a` twice — the
claimed first-occurrence-wins, id-appears-once behaviour is false. -/
theorem c7_counterexample :
    loadLines c7Lines (fun _ => none) = .ok c7G ∧
    (c7G.getNode "a").map Node.path = some "p2" ∧
    (c7G.getNode "a").map Node.path ≠ some "p1" ∧
    c7G.order = ["a", "a"] := by
  decide

/-- **C7, amended.** For any manifest whose lines parse, a successful load
yields the declared ids in declaration order including duplicates, and the
node stored for each id is its *last* declaration (with the metadata for
its path attached): later declarations overwrite earlier ones. -/
theorem c7_duplicate_last_wins (lines : List String) (metaOf : String → Option NodeMeta)
    (g : Graph) (ns : List Node)
    (hload : loadLines lines metaOf = .ok g)
    (hparse : parseManifestNodes lines = .ok ns) :
    g.order = ns.map Node.id ∧
    ∀ id, g.getNode id =
      (ns.reverse.find? (fun n => n.id = id)).map (fun n => { n with meta := metaOf n.path }) := by
  obtain ⟨ns2, hp2, hnodes, horder, hres⟩ := loadLines_inversion lines metaOf g hload
  rw [hparse] at hp2
  cases hp2
  constructor
  · rw [horder]
    unfold buildGraph
    rw [buildGraph_fold_order]
    simp
  · intro id
    show ((g.nodes.find? (fun p => p.1 = id)).map Prod.snd) = _
    rw [hnodes, find?_applyMeta]
    unfold buildGraph
    rw [buildGraph_fold_lookup]
    cases hr : ns.reverse.find? (fun n => n.id = id) <;> simp [List.find?]

/-- **C7, amended, witness.** At the concrete duplicate manifest the order
is `[a, a]` and the stored node is the second declaration. -/
theorem c7_duplicate_last_wins_witness :
    c7G.order = ["a", "a"] ∧
    c7G.getNode "a" = some { id := "a", path := "p2", tokens := 2, version := 1 } :=
  ⟨((c7_duplicate_last_wins c7Lines (fun _ => none) c7G c7Nodes (by decide) (by decide)).1).trans
      (by decide),
   ((c7_duplicate_last_wins c7Lines (fun _ => none) c7G c7Nodes (by decide) (by decide)).2
      "a").trans (by decide)⟩

/-- **C4, counterexample.** A manifest declaring one composite node loads
to a graph containing exactly that node: `load` of the model is a function
of the root manifest's lines alone, so no nested manifest is read and no
dot-prefixed child id is inserted, contradicting the claimed recursive
flattening. -/
theorem c4_counterexample :
    loadLines c4Lines (fun _ => none) = .ok c4G ∧
    c4G.order = ["api"] ∧
    c4G.nodes.map Prod.fst = ["api"] := by
  decide

/-- **C4, amended.** `Load` parses only the given manifest: every id
present in a successfully loaded graph is declared by one of that
manifest's own lines (composite nodes are stored as plain entries; nothing
is recursed into or dot-prefixed). -/
theorem c4_no_recursive_load (lines : List String) (metaOf : String → Option NodeMeta)
    (g : Graph) (ns : List Node)
    (hload : loadLines lines metaOf = .ok g)
    (hparse : parseManifestNodes lines = .ok ns) :
    g.order = ns.map Node.id ∧
    ∀ id, (g.getNode id).isSome → id ∈ ns.map Node.id := by
  obtain ⟨ns2, hp2, hnodes, horder, hres⟩ := loadLines_inversion lines metaOf g hload
  rw [hparse] at hp2
  cases hp2
  constructor
  · rw [horder]
    unfold buildGraph
    rw [buildGraph_fold_order]
    simp
  · intro id hsome
    have hlook : ((g.nodes.find? (fun p => p.1 = id)).map Prod.snd).isSome = true := hsome
    rw [hnodes, find?_applyMeta] at hlook
    unfold buildGraph at hlook
    rw [buildGraph_fold_lookup] at hlook
    cases hr : ns.reverse.find? (fun n => n.id = id) with
    | none => rw [hr] at hlook; simp at hlook
    | some n =>
      have hmem := List.mem_of_find?_eq_some hr
      have hpred := List.find?_some hr
      rw [List.mem_reverse] at hmem
      have : n.id = id := by simpa using hpred
      rw [← this]
      exact List.mem_map_of_mem Node.id hmem

/-- **C4, amended, witness.** At the concrete composite manifest the graph
order is `[api]` and the id `api` is declared by the manifest itself. -/
theorem c4_no_recursive_load_witness :
    c4G.order = ["api"] ∧ "api" ∈ c4Nodes.map Node.id :=
  ⟨((c4_no_recursive_load c4Lines (fun _ => none) c4G c4Nodes (by decide) (by decide)).1).trans
      (by decide),
   (c4_no_recursive_load c4Lines (fun _ => none) c4G c4Nodes (by decide) (by decide)).2
      "api" (by decide)⟩

/-- If some staged node evaluates with an error-severity violation (or the
error accumulator is already non-empty), the collection loop of
`ApplyChanges` either fails outright or completes with a non-empty error
list. -/
theorem evalLoop_error_or_found (g : Graph) (bundleOf : Node → Except String Bundle)
    (l : List StagedChanges) :
    ∀ (errs warns : List Violation),
      ((∃ sc ∈ l, ∃ node b, g.getNode sc.nodeID = some node ∧ bundleOf node = .ok b ∧
          (Evaluate node b (buildFilePaths sc.files)).violations.any
            (fun v => v.severity = "error") = true)
        ∨ errs ≠ []) →
      (∃ e, evalLoop g bundleOf l errs warns = .error e) ∨
      (∃ E W, evalLoop g bundleOf l errs warns = .ok (E, W) ∧ E ≠ []) := by
  induction l with
  | nil =>
    intro errs warns h
    rcases h with h | h
    · obtain ⟨sc, hmem, _⟩ := h
      exact absurd hmem (by simp)
    · exact Or.inr ⟨errs, warns, rfl, h⟩
  | cons sc rest ih =>
    intro errs warns h
    unfold evalLoop
    cases hn : g.getNode sc.nodeID with
    | none =>
      dsimp only
      exact Or.inl ⟨_, rfl⟩
    | some node =>
      dsimp only
      cases hb : bundleOf node with
      | error e =>
        dsimp only
        exact Or.inl ⟨_, rfl⟩
      | ok b =>
        dsimp only
        apply ih
        rcases h with h | h
        · obtain ⟨sc2, hmem, node2, b2, hn2, hb2, hany⟩ := h
          rcases List.mem_cons.mp hmem with heq | hmem2
          · right
            subst heq
            rw [hn] at hn2
            cases hn2
            rw [hb] at hb2
            cases hb2
            intro hemp
            rw [List.any_eq_true] at hany
            obtain ⟨v, hv, hsev⟩ := hany
            exact List.ne_nil_of_mem
              (List.mem_append_right _ (List.mem_filter.mpr ⟨hv, hsev⟩)) hemp
          · exact Or.inl ⟨sc2, hmem2, node2, b2, hn2, hb2, hany⟩
        · right
          intro hemp
          exact h (List.append_eq_nil.mp hemp).1

/-- **C1.** When policy evaluation of any staged node yields at least one
error-severity violation, `ApplyChanges` returns an error, writes nothing
to disk (the file system is returned unchanged), and leaves the whole
workspace — in particular the staged map — exactly as it was. -/
theorem c1_policy_error_aborts (bundleOf : Node → Except String Bundle)
    (gofmtErr : String → String → Option String) (isGit : Bool) (sha : Except String String)
    (g : Graph) (ws : Workspace) (fs : FS) (sc : StagedChanges) (node : Node) (b : Bundle)
    (hmem : sc ∈ ws.staged)
    (hnode : g.getNode sc.nodeID = some node)
    (hb : bundleOf node = .ok b)
    (hviol : (Evaluate node b (buildFilePaths sc.files)).violations.any
      (fun v => v.severity = "error") = true) :
    exceptIsOk (applyChanges (.ok g) bundleOf gofmtErr isGit sha ws fs).1 = false ∧
    (applyChanges (.ok g) bundleOf gofmtErr isGit sha ws fs).2.1 = ws ∧
    (applyChanges (.ok g) bundleOf gofmtErr isGit sha ws fs).2.2 = fs := by
  have hne : ws.staged ≠ [] := by
    intro h
    rw [h] at hmem
    exact absurd hmem (by simp)
  have hfound := evalLoop_error_or_found g bundleOf ws.staged [] []
    (Or.inl ⟨sc, hmem, node, b, hnode, hb, hviol⟩)
  unfold applyChanges
  rw [if_neg hne]
  dsimp only
  rcases hfound with ⟨e, he⟩ | ⟨E, W, hEW, hEne⟩
  · rw [he]
    exact ⟨rfl, rfl, rfl⟩
  · rw [hEW]
    dsimp only
    rw [if_pos hEne]
    exact ⟨rfl, rfl, rfl⟩

/-- **C1, witness.** The spec's S5 scenario: the node allows `src/api/**`,
the staged file is `src/other/z.go`; apply aborts with state and disk
untouched. -/
theorem c1_policy_error_aborts_witness :
    exceptIsOk (applyChanges (.ok c1G) (fun _ => .ok {}) (fun _ _ => none) false
      (.error "no git") c1Ws c1Fs).1 = false ∧
    (applyChanges (.ok c1G) (fun _ => .ok {}) (fun _ _ => none) false
      (.error "no git") c1Ws c1Fs).2.1 = c1Ws ∧
    (applyChanges (.ok c1G) (fun _ => .ok {}) (fun _ _ => none) false
      (.error "no git") c1Ws c1Fs).2.2 = c1Fs :=
  c1_policy_error_aborts (fun _ => .ok {}) (fun _ _ => none) false (.error "no git")
    c1G c1Ws c1Fs c1Sc c1Node {} (by decide) (by decide) (by decide) (by decide)

/-- Replaying a write list: the content of the last write to `p` wins;
untouched paths keep their old content. -/
theorem foldl_fsWrite_lookup (files : List FileChange) (fs : FS) (p : String) :
    (files.foldl (fun acc f => fsWrite acc f.path f.content) fs) p =
      match files.reverse.find? (fun f => f.path = p) with
      | some f => some f.content
      | none => fs p := by
  induction files generalizing fs with
  | nil => simp
  | cons f rest ih =>
    rw [List.foldl_cons, ih]
    rw [List.reverse_cons, List.find?_append]
    cases hr : rest.reverse.find? (fun f => f.path = p) with
    | some x => simp [Option.or]
    | none =>
      by_cases hp : f.path = p
      · subst hp
        simp [Option.or, List.find?, fsWrite]
      · have hd : (decide (f.path = p)) = false := by simp [hp]
        simp only [Option.or, List.find?, hd]
        unfold fsWrite
        rw [if_neg (fun hh => hp hh.symm)]

/-- Every snapshot entry holds the pre-apply content of its path. -/
theorem applySnapshot_content (staged : List StagedChanges) (fs : FS) :
    ∀ f ∈ applySnapshot staged fs, f.content = readFileD fs f.path := by
  intro f hf
  unfold applySnapshot at hf
  rw [List.mem_flatMap] at hf
  obtain ⟨sc, _, hf2⟩ := hf
  rw [List.mem_map] at hf2
  obtain ⟨f0, _, rfl⟩ := hf2
  rfl

/-- Every written path has a snapshot entry. -/
theorem applySnapshot_covers (staged : List StagedChanges) (fs : FS) (p : String)
    (hp : p ∈ writtenPaths staged) :
    ∃ f ∈ applySnapshot staged fs, f.path = p := by
  unfold writtenPaths at hp
  rw [List.mem_flatMap] at hp
  obtain ⟨sc, hsc, hp2⟩ := hp
  rw [List.mem_map] at hp2
  obtain ⟨f0, hf0, rfl⟩ := hp2
  refine ⟨FileChange.mk f0.path (readFileD fs f0.path), ?_, rfl⟩
  unfold applySnapshot
  rw [List.mem_flatMap]
  exact ⟨sc, hsc, List.mem_map.mpr ⟨f0, hf0, rfl⟩⟩

/-- Inversion of a successful `ApplyChanges`: the run went down the success
path, so the result is exactly: staged cleared, `lastApplied` holding the
pre-image snapshot, and the disk after the write loop. -/
theorem applyChanges_ok_inversion (graphLoad : Except String Graph)
    (bundleOf : Node → Except String Bundle) (gofmtErr : String → String → Option String)
    (isGit : Bool) (sha : Except String String) (ws : Workspace) (fs : FS)
    (h : (applyChanges graphLoad bundleOf gofmtErr isGit sha ws fs).1 = .ok ()) :
    applyChanges graphLoad bundleOf gofmtErr isGit sha ws fs =
      (.ok (), { applyWs2 isGit sha ws fs with staged := [] },
        (writeAllStaged gofmtErr ws.staged fs).2) := by
  by_cases hst : ws.staged = []
  · exfalso
    have hr : applyChanges graphLoad bundleOf gofmtErr isGit sha ws fs
        = (.error "no staged changes to apply", ws, fs) := by
      unfold applyChanges
      rw [if_pos hst]
    rw [hr] at h
    exact absurd h (by simp)
  · cases hgl : graphLoad with
    | error e =>
      exfalso
      have hr : applyChanges graphLoad bundleOf gofmtErr isGit sha ws fs
          = (.error ("failed to load graph: " ++ e), ws, fs) := by
        unfold applyChanges
        rw [if_neg hst, hgl]
      rw [hr] at h
      exact absurd h (by simp)
    | ok g =>
      cases hev : evalLoop g bundleOf ws.staged [] [] with
      | error e =>
        exfalso
        have hr : applyChanges graphLoad bundleOf gofmtErr isGit sha ws fs
            = (.error e, ws, fs) := by
          unfold applyChanges
          rw [if_neg hst, hgl]
          dsimp only
          rw [hev]
        rw [hr] at h
        exact absurd h (by simp)
      | ok EW =>
        obtain ⟨E, W⟩ := EW
        by_cases hE : E ≠ []
        · exfalso
          have hr : applyChanges graphLoad bundleOf gofmtErr isGit sha ws fs
              = (.error (violationsMsg E), ws, fs) := by
            unfold applyChanges
            rw [if_neg hst, hgl]
            dsimp only
            rw [hev]
            dsimp only
            rw [if_pos hE]
          rw [hr] at h
          exact absurd h (by simp)
        · rw [hgl] at h
          have hred : applyChanges (Except.ok g : Except String Graph) bundleOf gofmtErr
                isGit sha ws fs
              = (match writeAllStaged gofmtErr ws.staged fs with
                 | (.error e, fs2) => (.error e, applyWs2 isGit sha ws fs, fs2)
                 | (.ok _, fs2) => (.ok (), { applyWs2 isGit sha ws fs with staged := [] }, fs2)) := by
            unfold applyChanges
            rw [if_neg hst]
            dsimp only
            rw [hev]
            dsimp only
            rw [if_neg hE]
            rfl
          rw [hred] at h
          rw [hred]
          cases hw : writeAllStaged gofmtErr ws.staged fs with
          | mk r fsW =>
            cases r with
            | error e =>
              exfalso
              rw [hw] at h
              exact absurd h (by simp)
            | ok u =>
              rfl

/-- After a successful apply, undo succeeds, clears `lastApplied`, and puts
the pre-apply content back at every written path (a path that did not
exist is recreated as an empty file). -/
theorem apply_undo_core (graphLoad : Except String Graph)
    (bundleOf : Node → Except String Bundle) (gofmtErr : String → String → Option String)
    (isGit : Bool) (sha : Except String String) (ws : Workspace) (fs : FS)
    (h : (applyChanges graphLoad bundleOf gofmtErr isGit sha ws fs).1 = .ok ()) :
    (undo (applyChanges graphLoad bundleOf gofmtErr isGit sha ws fs).2.1
      (applyChanges graphLoad bundleOf gofmtErr isGit sha ws fs).2.2).1 = .ok () ∧
    (undo (applyChanges graphLoad bundleOf gofmtErr isGit sha ws fs).2.1
      (applyChanges graphLoad bundleOf gofmtErr isGit sha ws fs).2.2).2.1.lastApplied = none ∧
    (∀ p, p ∈ writtenPaths ws.staged →
      (undo (applyChanges graphLoad bundleOf gofmtErr isGit sha ws fs).2.1
        (applyChanges graphLoad bundleOf gofmtErr isGit sha ws fs).2.2).2.2 p
        = some (readFileD fs p)) := by
  rw [applyChanges_ok_inversion graphLoad bundleOf gofmtErr isGit sha ws fs h]
  dsimp only
  unfold undo
  have hla : ({ applyWs2 isGit sha ws fs with staged := [] } : Workspace).lastApplied
      = some (LastApplied.mk (applyLastID ws.staged) (applySnapshot ws.staged fs)) := rfl
  rw [hla]
  dsimp only
  refine ⟨rfl, rfl, ?_⟩
  intro p hp
  rw [foldl_fsWrite_lookup]
  obtain ⟨f, hf, hfp⟩ := applySnapshot_covers ws.staged fs p hp
  have hfind : ((applySnapshot ws.staged fs).reverse.find?
      (fun f => f.path = p)).isSome = true := by
    rw [List.find?_isSome]
    exact ⟨f, List.mem_reverse.mpr hf, by simp [hfp]⟩
  cases hr : (applySnapshot ws.staged fs).reverse.find? (fun f => f.path = p) with
  | none => rw [hr] at hfind; simp at hfind
  | some f2 =>
    have hmem2 := List.mem_reverse.mp (List.mem_of_find?_eq_some hr)
    have hpred2 : f2.path = p := by simpa using List.find?_some hr
    dsimp only
    rw [applySnapshot_content ws.staged fs f2 hmem2, hpred2]

/-- **C3.** After a successful apply followed by the (always successful)
undo, every written path carries its pre-apply on-disk byte content, and a
second undo with no intervening apply fails with `no changes to undo`. -/
theorem c3_apply_undo_roundtrip (graphLoad : Except String Graph)
    (bundleOf : Node → Except String Bundle) (gofmtErr : String → String → Option String)
    (isGit : Bool) (sha : Except String String) (ws : Workspace) (fs : FS)
    (h : (applyChanges graphLoad bundleOf gofmtErr isGit sha ws fs).1 = .ok ()) :
    (undo (applyChanges graphLoad bundleOf gofmtErr isGit sha ws fs).2.1
      (applyChanges graphLoad bundleOf gofmtErr isGit sha ws fs).2.2).1 = .ok () ∧
    (∀ p c, p ∈ writtenPaths ws.staged → fs p = some c →
      (undo (applyChanges graphLoad bundleOf gofmtErr isGit sha ws fs).2.1
        (applyChanges graphLoad bundleOf gofmtErr isGit sha ws fs).2.2).2.2 p = some c) ∧
    (undo (undo (applyChanges graphLoad bundleOf gofmtErr isGit sha ws fs).2.1
        (applyChanges graphLoad bundleOf gofmtErr isGit sha ws fs).2.2).2.1
      (undo (applyChanges graphLoad bundleOf gofmtErr isGit sha ws fs).2.1
        (applyChanges graphLoad bundleOf gofmtErr isGit sha ws fs).2.2).2.2).1
      = .error "no changes to undo" := by
  obtain ⟨hok, hnone, hrestore⟩ :=
    apply_undo_core graphLoad bundleOf gofmtErr isGit sha ws fs h
  refine ⟨hok, ?_, ?_⟩
  · intro p c hp hc
    have hres := hrestore p hp
    rw [hres]
    unfold readFileD
    rw [hc]
    rfl
  · have hund : ∀ (ws2 : Workspace) (fs2 : FS), ws2.lastApplied = none →
        (undo ws2 fs2).1 = .error "no changes to undo" := by
      intro ws2 fs2 hn
      unfold undo
      rw [hn]
    exact hund _ _ hnone

/-- **C9.** For a staged path that does not exist on disk before apply, the
pre-image snapshot records empty content, so undo leaves an existing
zero-byte file at that path (`some ""`) rather than removing it. -/
theorem c9_missing_file_snapshots_empty (graphLoad : Except String Graph)
    (bundleOf : Node → Except String Bundle) (gofmtErr : String → String → Option String)
    (isGit : Bool) (sha : Except String String) (ws : Workspace) (fs : FS)
    (h : (applyChanges graphLoad bundleOf gofmtErr isGit sha ws fs).1 = .ok ()) :
    ∀ p, p ∈ writtenPaths ws.staged → fs p = none →
      ((applyChanges graphLoad bundleOf gofmtErr isGit sha ws fs).2.1.lastApplied
          = some (LastApplied.mk (applyLastID ws.staged) (applySnapshot ws.staged fs))
        ∧ (∀ f ∈ applySnapshot ws.staged fs, f.path = p → f.content = "")
        ∧ (∃ f ∈ applySnapshot ws.staged fs, f.path = p))
      ∧ (undo (applyChanges graphLoad bundleOf gofmtErr isGit sha ws fs).2.1
          (applyChanges graphLoad bundleOf gofmtErr isGit sha ws fs).2.2).2.2 p = some "" := by
  intro p hp hmiss
  have hempty : readFileD fs p = "" := by
    unfold readFileD
    rw [hmiss]
    rfl
  refine ⟨⟨?_, ?_, applySnapshot_covers ws.staged fs p hp⟩, ?_⟩
  · rw [applyChanges_ok_inversion graphLoad bundleOf gofmtErr isGit sha ws fs h]
    rfl
  · intro f hf hfp
    rw [applySnapshot_content ws.staged fs f hf, hfp, hempty]
  · obtain ⟨_, _, hrestore⟩ :=
      apply_undo_core graphLoad bundleOf gofmtErr isGit sha ws fs h
    rw [hrestore p hp, hempty]

/-- **C3, witness.** The spec's S6 scenario: `foo.go` holds `A`, apply
writes `B`, undo restores `A`, and a second undo fails with
`no changes to undo`. -/
theorem c3_apply_undo_roundtrip_witness :
    (undo (applyChanges (.ok c3G) (fun _ => .ok {}) (fun _ _ => none) false
        (.error "no git") c3Ws c3Fs).2.1
      (applyChanges (.ok c3G) (fun _ => .ok {}) (fun _ _ => none) false
        (.error "no git") c3Ws c3Fs).2.2).2.2 "foo.go" = some "A" ∧
    (undo (undo (applyChanges (.ok c3G) (fun _ => .ok {}) (fun _ _ => none) false
          (.error "no git") c3Ws c3Fs).2.1
        (applyChanges (.ok c3G) (fun _ => .ok {}) (fun _ _ => none) false
          (.error "no git") c3Ws c3Fs).2.2).2.1
      (undo (applyChanges (.ok c3G) (fun _ => .ok {}) (fun _ _ => none) false
          (.error "no git") c3Ws c3Fs).2.1
        (applyChanges (.ok c3G) (fun _ => .ok {}) (fun _ _ => none) false
          (.error "no git") c3Ws c3Fs).2.2).2.2).1 = .error "no changes to undo" := by
  have hc := c3_apply_undo_roundtrip (.ok c3G) (fun _ => .ok {}) (fun _ _ => none) false
    (.error "no git") c3Ws c3Fs (by decide)
  exact ⟨hc.2.1 "foo.go" "A" (by decide) (by decide), hc.2.2⟩

/-- **C9, witness.** Applying a write to the missing `new.go` and undoing
leaves `new.go` present with empty content. -/
theorem c9_missing_file_witness :
    (undo (applyChanges (.ok c3G) (fun _ => .ok {}) (fun _ _ => none) false
        (.error "no git") c9Ws c9Fs).2.1
      (applyChanges (.ok c3G) (fun _ => .ok {}) (fun _ _ => none) false
        (.error "no git") c9Ws c9Fs).2.2).2.2 "new.go" = some "" := by
  have hc := c9_missing_file_snapshots_empty (.ok c3G) (fun _ => .ok {}) (fun _ _ => none)
    false (.error "no git") c9Ws c9Fs (by decide)
  exact (hc "new.go" (by decide) (by decide)).2

/- ### Well-formedness facts a successful load guarantees (towards C5) -/

/-- Membership in an upsert: the old entries or the freshly keyed node. -/
theorem mem_upsert (m : List (String × Node)) (n : Node) (p : String × Node)
    (h : p ∈ upsert m n) : p ∈ m ∨ p = (n.id, n) := by
  induction m with
  | nil =>
    unfold upsert at h
    rcases List.mem_singleton.mp h with rfl
    exact Or.inr rfl
  | cons kv rest ih =>
    obtain ⟨k, v⟩ := kv
    unfold upsert at h
    by_cases hk : k = n.id
    · rw [if_pos hk] at h
      rcases List.mem_cons.mp h with rfl | hm
      · exact Or.inr (by rw [hk])
      · exact Or.inl (List.mem_cons_of_mem _ hm)
    · rw [if_neg hk] at h
      rcases List.mem_cons.mp h with rfl | hm
      · exact Or.inl (List.mem_cons_self _ _)
      · rcases ih hm with hm2 | hm2
        · exact Or.inl (List.mem_cons_of_mem _ hm2)
        · exact Or.inr hm2

/-- Entries of the `Load` fold are keyed by their node's id, which is one
of the declared ids. -/
theorem mem_fold_upsert (ns : List Node) :
    ∀ (m : List (String × Node)) (ord : List String) (p : String × Node),
      p ∈ (ns.foldl (fun acc n => (upsert acc.1 n, acc.2 ++ [n.id])) (m, ord)).1 →
      p ∈ m ∨ (p.1 = p.2.id ∧ p.1 ∈ ns.map Node.id) := by
  induction ns with
  | nil => intro m ord p hp; exact Or.inl hp
  | cons n rest ih =>
    intro m ord p hp
    rw [List.foldl_cons] at hp
    rcases ih (upsert m n) (ord ++ [n.id]) p hp with hm | ⟨hid, hmem⟩
    · rcases mem_upsert m n p hm with hm2 | rfl
      · exact Or.inl hm2
      · exact Or.inr ⟨rfl, by simp⟩
    · exact Or.inr ⟨hid, by simp [hmem]⟩

/-- The key list of an upsert: unchanged when the id is present, extended
by it otherwise. -/
theorem upsert_keys (m : List (String × Node)) (n : Node) :
    (upsert m n).map Prod.fst =
      if n.id ∈ m.map Prod.fst then m.map Prod.fst else m.map Prod.fst ++ [n.id] := by
  induction m with
  | nil => simp [upsert]
  | cons kv rest ih =>
    obtain ⟨k, v⟩ := kv
    unfold upsert
    by_cases hk : k = n.id
    · subst hk
      rw [if_pos (by simp)]
      simp
    · rw [if_neg hk, List.map_cons, List.map_cons, ih]
      by_cases hmem : n.id ∈ rest.map Prod.fst
      · rw [if_pos hmem, if_pos (by simp [hmem])]
      · have hnk : ¬n.id = k := fun h => hk h.symm
        rw [if_neg hmem, if_neg (by simp [hmem, hnk])]
        simp

/-- Upsert preserves key uniqueness. -/
theorem upsert_keys_nodup (m : List (String × Node)) (n : Node)
    (h : (m.map Prod.fst).Nodup) : ((upsert m n).map Prod.fst).Nodup := by
  rw [upsert_keys]
  by_cases hmem : n.id ∈ m.map Prod.fst
  · rw [if_pos hmem]; exact h
  · rw [if_neg hmem]
    rw [List.nodup_append]
    refine ⟨h, List.nodup_singleton _, ?_⟩
    intro a ha hb
    rw [List.mem_singleton] at hb
    subst hb
    exact hmem ha

/-- Keys of the `Load` fold stay unique. -/
theorem fold_upsert_keys_nodup (ns : List Node) :
    ∀ (m : List (String × Node)) (ord : List String),
      (m.map Prod.fst).Nodup →
      (((ns.foldl (fun acc n => (upsert acc.1 n, acc.2 ++ [n.id])) (m, ord)).1.map
        Prod.fst)).Nodup := by
  induction ns with
  | nil => intro m ord h; exact h
  | cons n rest ih =>
    intro m ord h
    rw [List.foldl_cons]
    exact ih (upsert m n) (ord ++ [n.id]) (upsert_keys_nodup m n h)

/-- With unique keys, every stored entry is what lookup returns
(list-level form). -/
theorem find?_of_mem_nodup (l : List (String × Node)) (hnd : (l.map Prod.fst).Nodup)
    (p : String × Node) (hp : p ∈ l) :
    (l.find? (fun q => q.1 = p.1)).map Prod.snd = some p.2 := by
  induction l with
  | nil => exact absurd hp (by simp)
  | cons a rest ih =>
    rw [List.map_cons, List.nodup_cons] at hnd
    rcases List.mem_cons.mp hp with rfl | hm
    · rw [List.find?_cons_of_pos _ (by simp)]
      rfl
    · by_cases ha : a.1 = p.1
      · exfalso
        exact hnd.1 (ha ▸ List.mem_map_of_mem Prod.fst hm)
      · rw [List.find?_cons_of_neg _ (by simp [ha])]
        exact ih hnd.2 hm

/-- With unique keys, every stored entry is what lookup returns. -/
theorem getNode_of_mem (g : Graph) (hnd : (g.nodes.map Prod.fst).Nodup)
    (p : String × Node) (hp : p ∈ g.nodes) : g.getNode p.1 = some p.2 :=
  find?_of_mem_nodup g.nodes hnd p hp

/-- `resolveCheck` succeeds only when every dependency of every stored
node resolves. -/
theorem resolveCheck_ok (g : Graph) (h : resolveCheck g = .ok ()) :
    ∀ p ∈ g.nodes, ∀ d ∈ p.2.deps, (g.getNode d).isSome := by
  intro p hp d hd
  unfold resolveCheck at h
  cases hf : g.nodes.find? (fun p => p.2.deps.any (fun d => (g.getNode d).isNone)) with
  | some q =>
    exfalso
    have hq := List.find?_some hf
    rw [List.any_eq_true] at hq
    obtain ⟨d2, hd2, hnone⟩ := hq
    cases hg : q.2.deps.find? (fun d => (g.getNode d).isNone) with
    | none =>
      rw [List.find?_eq_none] at hg
      exact hg d2 hd2 hnone
    | some d3 =>
      simp only [hf, hg] at h
      exact absurd h (by simp)
  | none =>
    rw [List.find?_eq_none] at hf
    have := hf p hp
    rw [List.any_eq_true] at this
    by_contra hns
    exact this ⟨d, hd, by simpa using hns⟩

/-- The dependency fold inside `visit`: under the rank discipline every
child visit succeeds and the accumulated state keeps the invariant; all
children end up visited, nothing already visited is lost, and newly
visited ids rank strictly below the parent bound `R`. -/
theorem visitKids_ok (g : Graph) (rank : String → Nat)
    (_hwf5 : ∀ k n, g.getNode k = some n → n.id = k)
    (_hwf1 : ∀ k n, g.getNode k = some n → ∀ d ∈ n.deps, (g.getNode d).isSome)
    (_hrank : ∀ k n, g.getNode k = some n → ∀ d ∈ n.deps, rank d < rank k)
    (fuel : Nat)
    (ihvisit : ∀ node st, TopoInv g st → g.getNode node.id = some node →
      (∀ t ∈ st.temp, rank node.id < rank t) → rank node.id < fuel →
      ∃ st2, visitT g fuel node st = .ok st2 ∧ TopoInv g st2 ∧ st2.temp = st.temp ∧
        (∃ suf, st2.sorted = st.sorted ++ suf) ∧ node.id ∈ st2.visited ∧
        (∀ x ∈ st.visited, x ∈ st2.visited) ∧
        (∀ x ∈ st2.visited, x ∈ st.visited ∨ rank x ≤ rank node.id)) :
    ∀ (cs : List Node) (st : DfsState) (R : Nat),
      TopoInv g st →
      (∀ c ∈ cs, g.getNode c.id = some c ∧ rank c.id < R) →
      (∀ t ∈ st.temp, R ≤ rank t) →
      R ≤ fuel →
      ∃ st2,
        (cs.foldl (fun (acc : Except String DfsState) dep =>
          match acc with
          | .error e => .error e
          | .ok s => visitT g fuel dep s) (Except.ok st)) = .ok st2 ∧
        TopoInv g st2 ∧ st2.temp = st.temp ∧
        (∃ suf, st2.sorted = st.sorted ++ suf) ∧
        (∀ c ∈ cs, c.id ∈ st2.visited) ∧
        (∀ x ∈ st.visited, x ∈ st2.visited) ∧
        (∀ x ∈ st2.visited, x ∈ st.visited ∨ rank x < R) := by
  intro cs
  induction cs with
  | nil =>
    intro st R hinv hcs htemp hfuel
    exact ⟨st, rfl, hinv, rfl, ⟨[], by simp⟩, by simp, fun x hx => hx, fun x hx => Or.inl hx⟩
  | cons c rest ih =>
    intro st R hinv hcs htemp hfuel
    obtain ⟨hc, hcrank⟩ := hcs c (by simp)
    obtain ⟨stc, hvc, hinvc, htempc, ⟨suf1, hsor1⟩, hcidc, hpresc, hboundc⟩ :=
      ihvisit c st hinv hc (fun t ht => lt_of_lt_of_le hcrank (htemp t ht))
        (lt_of_lt_of_le hcrank hfuel)
    rw [List.foldl_cons]
    have hstep : (match (Except.ok st : Except String DfsState) with
        | .error e => .error e
        | .ok s => visitT g fuel c s) = Except.ok stc := hvc
    rw [hstep]
    obtain ⟨st2, hfold, hinv2, htemp2, ⟨suf2, hsor2⟩, hall2, hpres2, hbound2⟩ :=
      ih stc R hinvc (fun c2 hc2 => hcs c2 (by simp [hc2]))
        (fun t ht => htemp t (htempc ▸ ht)) hfuel
    refine ⟨st2, hfold, hinv2, htemp2.trans htempc,
      ⟨suf1 ++ suf2, by rw [hsor2, hsor1, List.append_assoc]⟩, ?_, ?_, ?_⟩
    · intro c2 hc2
      rcases List.mem_cons.mp hc2 with heq | hm
      · subst heq
        exact hpres2 _ hcidc
      · exact hall2 c2 hm
    · exact fun x hx => hpres2 x (hpresc x hx)
    · intro x hx
      rcases hbound2 x hx with hin | hlt
      · rcases hboundc x hin with hin2 | hle
        · exact Or.inl hin2
        · exact Or.inr (lt_of_le_of_lt hle hcrank)
      · exact Or.inr hlt

/-- The `visit` closure succeeds under the rank discipline and preserves
the DFS invariant; the visited node ends up in the output, `temp` is
restored, and every newly visited id ranks at most the visited node. -/
theorem visitT_ok (g : Graph) (rank : String → Nat)
    (hwf5 : ∀ k n, g.getNode k = some n → n.id = k)
    (hwf1 : ∀ k n, g.getNode k = some n → ∀ d ∈ n.deps, (g.getNode d).isSome)
    (hrank : ∀ k n, g.getNode k = some n → ∀ d ∈ n.deps, rank d < rank k) :
    ∀ (fuel : Nat) (node : Node) (st : DfsState), TopoInv g st →
      g.getNode node.id = some node →
      (∀ t ∈ st.temp, rank node.id < rank t) → rank node.id < fuel →
      ∃ st2, visitT g fuel node st = .ok st2 ∧ TopoInv g st2 ∧ st2.temp = st.temp ∧
        (∃ suf, st2.sorted = st.sorted ++ suf) ∧ node.id ∈ st2.visited ∧
        (∀ x ∈ st.visited, x ∈ st2.visited) ∧
        (∀ x ∈ st2.visited, x ∈ st.visited ∨ rank x ≤ rank node.id) := by
  intro fuel
  induction fuel with
  | zero =>
    intro node st _ _ _ hlt
    exact absurd hlt (by omega)
  | succ f ih =>
    intro node st hinv hnode htemp hlt
    have hmemno : node.id ∉ st.temp := fun hm => absurd (htemp node.id hm) (lt_irrefl _)
    unfold visitT
    rw [if_neg (by simpa using hmemno)]
    by_cases hvis : node.id ∈ st.visited
    · rw [if_pos (by simpa using hvis)]
      exact ⟨st, rfl, hinv, rfl, ⟨[], by simp⟩, hvis, fun x hx => hx, fun x hx => Or.inl hx⟩
    · rw [if_neg (by simpa using hvis)]
      have hkids : ∀ c ∈ g.children node,
          g.getNode c.id = some c ∧ rank c.id < rank node.id := by
        intro c hc
        unfold Graph.children at hc
        rw [List.mem_filterMap] at hc
        obtain ⟨d, hd, hgd⟩ := hc
        have hcid : c.id = d := hwf5 d c hgd
        exact ⟨by rw [hcid]; exact hgd, by rw [hcid]; exact hrank node.id node hnode d hd⟩
      obtain ⟨st2, hfold, hinv2, htemp2, ⟨suf, hsor⟩, hall, hpres, hbound⟩ :=
        visitKids_ok g rank hwf5 hwf1 hrank f ih (g.children node)
          { st with temp := node.id :: st.temp } (rank node.id)
          hinv hkids
          (by
            intro t ht
            rcases List.mem_cons.mp ht with heq | hm
            · rw [heq]
            · exact le_of_lt (htemp t hm))
          (by omega)
      simp only [hfold]
      have htempeq : st2.temp.erase node.id = st.temp := by
        rw [htemp2]
        exact List.erase_cons_head _ _
      have hvismem : ∀ x, x ∈ st2.visited ↔ x ∈ st2.sorted.map Node.id := by
        intro x
        rw [hinv2.1, List.mem_reverse]
      have hnotin2 : node.id ∉ st2.sorted.map Node.id := by
        intro hmem
        rcases hbound node.id ((hvismem node.id).mpr hmem) with hin | hltr
        · exact hvis hin
        · exact absurd hltr (lt_irrefl _)
      refine ⟨_, rfl, ⟨?_, ?_, ?_, ?_⟩, htempeq, ⟨suf ++ [node], by rw [hsor, List.append_assoc]⟩,
        List.mem_cons_self _ _, ?_, ?_⟩
      · show node.id :: st2.visited = ((st2.sorted ++ [node]).map Node.id).reverse
        rw [hinv2.1]
        simp
      · show ((st2.sorted ++ [node]).map Node.id).Nodup
        rw [List.map_append]
        rw [List.nodup_append]
        refine ⟨hinv2.2.1, List.nodup_singleton _, ?_⟩
        intro a ha hb
        rw [List.map_singleton, List.mem_singleton] at hb
        subst hb
        exact hnotin2 ha
      · intro n hn
        rcases List.mem_append.mp hn with hm | hm
        · exact hinv2.2.2.1 n hm
        · rw [List.mem_singleton] at hm
          subst hm
          exact hnode
      · intro i hi d hd
        rcases Nat.lt_or_ge i st2.sorted.length with hlt2 | hge
        · rw [List.getElem_append_left hlt2] at hd
          rw [List.take_append_of_le_length (le_of_lt hlt2)]
          exact hinv2.2.2.2 i hlt2 d hd
        · have hieq : i = st2.sorted.length := by
            rw [List.length_append, List.length_singleton] at hi
            omega
          rw [List.getElem_concat_length _ _ _ hieq] at hd
          rw [hieq, List.take_left]
          obtain ⟨c, hgd⟩ := Option.isSome_iff_exists.mp (hwf1 node.id node hnode d hd)
          have hcmem : c ∈ g.children node := by
            unfold Graph.children
            rw [List.mem_filterMap]
            exact ⟨d, hd, hgd⟩
          have hcid : c.id = d := hwf5 d c hgd
          have := (hvismem c.id).mp (hall c hcmem)
          rw [hcid] at this
          exact this
      · intro x hx
        exact List.mem_cons_of_mem _ (hpres x hx)
      · intro x hx
        rcases List.mem_cons.mp hx with heq | hm
        · exact Or.inr (heq ▸ le_refl _)
        · rcases hbound x hm with hin | hltr
          · exact Or.inl hin
          · exact Or.inr (le_of_lt hltr)

/-- Metadata attachment keeps the key list. -/
theorem applyMeta_keys (mo : String → Option NodeMeta) (m : List (String × Node)) :
    (applyMeta mo m).map Prod.fst = m.map Prod.fst := by
  unfold applyMeta
  rw [List.map_map]
  rfl

/-- The structural facts a successful load guarantees: unique keys, keys
equal to their node's id and listed in the order, every order entry
resolvable, and every stored dependency resolvable. -/
theorem loadLines_wf (lines : List String) (metaOf : String → Option NodeMeta)
    (g : Graph) (hload : loadLines lines metaOf = .ok g) :
    (g.nodes.map Prod.fst).Nodup ∧
    (∀ p ∈ g.nodes, p.1 = p.2.id ∧ p.1 ∈ g.order) ∧
    (∀ id ∈ g.order, (g.getNode id).isSome) ∧
    (∀ k n, g.getNode k = some n → ∀ d ∈ n.deps, (g.getNode d).isSome) := by
  obtain ⟨ns, hp, hnodes, horder, hres⟩ := loadLines_inversion lines metaOf g hload
  have horder2 : g.order = ns.map Node.id := by
    rw [horder]
    unfold buildGraph
    rw [buildGraph_fold_order]
    simp
  have hmeta : ∀ d, g.getNode d =
      (Graph.getNode { nodes := (buildGraph ns).1, order := (buildGraph ns).2 } d).map
        (fun n => { n with meta := metaOf n.path }) := by
    intro d
    show ((g.nodes.find? (fun p => p.1 = d)).map Prod.snd) = _
    rw [hnodes, find?_applyMeta]
    rfl
  refine ⟨?_, ?_, ?_, ?_⟩
  · rw [hnodes]
    rw [applyMeta_keys]
    unfold buildGraph
    exact fold_upsert_keys_nodup ns [] [] (by simp)
  · intro p hp2
    rw [hnodes] at hp2
    unfold applyMeta at hp2
    rw [List.mem_map] at hp2
    obtain ⟨q, hq, heq⟩ := hp2
    unfold buildGraph at hq
    rcases mem_fold_upsert ns [] [] q hq with hempty | ⟨hid, hmem⟩
    · exact absurd hempty (by simp)
    · constructor
      · rw [← heq] at *
        simpa using hid
      · rw [← heq]
        rw [horder2]
        simpa using hmem
  · intro id hid
    rw [horder2, List.mem_map] at hid
    obtain ⟨n, hn, hnid⟩ := hid
    rw [hmeta id]
    rw [Option.isSome_map']
    show (((buildGraph ns).1.find? (fun p => p.1 = id)).map Prod.snd).isSome = true
    unfold buildGraph
    rw [buildGraph_fold_lookup]
    cases hr : ns.reverse.find? (fun n => n.id = id) with
    | some x => simp
    | none =>
      exfalso
      rw [List.find?_eq_none] at hr
      exact hr n (List.mem_reverse.mpr hn) (by simp [hnid])
  · intro k n hkn d hd
    rw [hmeta k] at hkn
    rw [Option.map_eq_some'] at hkn
    obtain ⟨n0, hn0, hneq⟩ := hkn
    have hdeps : n.deps = n0.deps := by
      rw [← hneq]
    have hfind := hn0
    unfold Graph.getNode at hfind
    rw [Option.map_eq_some'] at hfind
    obtain ⟨q, hq, hq2⟩ := hfind
    have hqmem := List.mem_of_find?_eq_some hq
    have hdep0 := resolveCheck_ok _ hres q hqmem d (by rw [hq2, ← hdeps]; exact hd)
    rw [hmeta d, Option.isSome_map']
    exact hdep0

/-- Lookup answers determine the node's id (successful-load graphs). -/
theorem getNode_id_eq (g : Graph)
    (hkeyid : ∀ p ∈ g.nodes, p.1 = p.2.id ∧ p.1 ∈ g.order) :
    ∀ k n, g.getNode k = some n → n.id = k := by
  intro k n h
  unfold Graph.getNode at h
  rw [Option.map_eq_some'] at h
  obtain ⟨p, hp, hp2⟩ := h
  have hpred : p.1 = k := by simpa using List.find?_some hp
  have hmem := List.mem_of_find?_eq_some hp
  rw [← hp2, ← (hkeyid p hmem).1, hpred]

/-- The outer loop of `TopologicalSort` succeeds on resolvable ids and
accumulates them all into the visited set while keeping the invariant. -/
theorem topoLoop_ok (g : Graph) (rank : String → Nat)
    (hwf5 : ∀ k n, g.getNode k = some n → n.id = k)
    (hwf1 : ∀ k n, g.getNode k = some n → ∀ d ∈ n.deps, (g.getNode d).isSome)
    (hrank : ∀ k n, g.getNode k = some n → ∀ d ∈ n.deps, rank d < rank k)
    (hbound : ∀ k, (g.getNode k).isSome → rank k < g.nodes.length) :
    ∀ (ids : List String) (st : DfsState),
      TopoInv g st → st.temp = [] →
      (∀ id ∈ ids, (g.getNode id).isSome) →
      ∃ st2, topoLoop g (g.nodes.length + 1) ids st = .ok st2 ∧ TopoInv g st2 ∧
        st2.temp = [] ∧ (∀ id ∈ ids, id ∈ st2.visited) ∧
        (∀ x ∈ st.visited, x ∈ st2.visited) := by
  intro ids
  induction ids with
  | nil =>
    intro st hinv htempnil _
    exact ⟨st, rfl, hinv, htempnil, by simp, fun x hx => hx⟩
  | cons id rest ih =>
    intro st hinv htempnil hsome
    obtain ⟨node, hn⟩ := Option.isSome_iff_exists.mp (hsome id (by simp))
    have hnid : node.id = id := hwf5 id node hn
    have hn2 : g.getNode node.id = some node := by rw [hnid]; exact hn
    obtain ⟨stv, hvis, hinvv, htempv, _, hidv, hpresv, _⟩ :=
      visitT_ok g rank hwf5 hwf1 hrank (g.nodes.length + 1) node st hinv hn2
        (by rw [htempnil]; simp)
        (by
          have := hbound node.id (by rw [hn2]; rfl)
          omega)
    obtain ⟨st2, hloop, hinv2, htemp2, hall2, hpres2⟩ :=
      ih stv hinvv (htempv.trans htempnil) (fun id2 h2 => hsome id2 (by simp [h2]))
    refine ⟨st2, ?_, hinv2, htemp2, ?_, fun x hx => hpres2 x (hpresv x hx)⟩
    · unfold topoLoop
      rw [hn]
      dsimp only
      rw [hvis]
      exact hloop
    · intro id2 h2
      rcases List.mem_cons.mp h2 with heq | hm
      · subst heq
        exact hpres2 _ (hnid ▸ hidv)
      · exact hall2 id2 hm

/-- **C5.** For every manifest that loads successfully and whose
dependency graph is acyclic, `TopologicalSort` succeeds and returns a
sequence containing every graph node exactly once (all stored nodes are
present, all output nodes are graph nodes, and output ids are pairwise
distinct) in which every dependency of a node appears strictly before the
node itself. -/
theorem c5_topologicalSort_sound (lines : List String) (metaOf : String → Option NodeMeta)
    (g : Graph) (hload : loadLines lines metaOf = .ok g) (hacy : AcyclicRank g) :
    ∃ sorted, topologicalSort g = .ok sorted ∧
      (∀ p ∈ g.nodes, p.2 ∈ sorted) ∧
      (∀ n ∈ sorted, g.getNode n.id = some n) ∧
      (sorted.map Node.id).Nodup ∧
      (∀ i (hi : i < sorted.length), ∀ d ∈ (sorted[i]).deps,
        d ∈ (sorted.take i).map Node.id) := by
  obtain ⟨rank, hrank, hbound⟩ := hacy
  obtain ⟨hnd, hkeyid, hwf3, hwf1⟩ := loadLines_wf lines metaOf g hload
  have hwf5 := getNode_id_eq g hkeyid
  have hinv0 : TopoInv g {} := by
    refine ⟨rfl, by simp, by simp, ?_⟩
    intro i hi
    exact absurd hi (by simp)
  obtain ⟨st2, hloop, hinv2, _, hallv, _⟩ :=
    topoLoop_ok g rank hwf5 hwf1 hrank hbound g.order {} hinv0 rfl hwf3
  refine ⟨st2.sorted, ?_, ?_, hinv2.2.2.1, hinv2.2.1, hinv2.2.2.2⟩
  · unfold topologicalSort
    rw [hloop]
    rfl
  · intro p hp
    have hvisited := hallv p.1 (hkeyid p hp).2
    rw [hinv2.1, List.mem_reverse, List.mem_map] at hvisited
    obtain ⟨m, hm, hmid⟩ := hvisited
    have hcanon := hinv2.2.2.1 m hm
    rw [hmid] at hcanon
    have hlookup := getNode_of_mem g hnd p hp
    rw [hcanon] at hlookup
    cases hlookup
    exact hm

/-- **C5, witness.** The two-node graph loads, is acyclic (rank `a` = 0,
`b` = 1), and the sort's guarantees hold for it. -/
theorem c5_topologicalSort_sound_witness :
    ∃ sorted, topologicalSort c5G = .ok sorted ∧
      (∀ p ∈ c5G.nodes, p.2 ∈ sorted) ∧
      (∀ n ∈ sorted, c5G.getNode n.id = some n) ∧
      (sorted.map Node.id).Nodup ∧
      (∀ i (hi : i < sorted.length), ∀ d ∈ (sorted[i]).deps,
        d ∈ (sorted.take i).map Node.id) := by
  apply c5_topologicalSort_sound c5Lines (fun _ => none) c5G (by decide)
  refine ⟨c5Rank, ?_, ?_⟩
  · intro k n h d hd
    by_cases h1 : ("a" : String) = k
    · subst h1
      rw [show c5G.getNode "a" = some c5Na from by decide] at h
      cases h
      simp [c5Na] at hd
    · by_cases h2 : ("b" : String) = k
      · subst h2
        rw [show c5G.getNode "b" = some c5Nb from by decide] at h
        cases h
        have hda : d = "a" := by simpa [c5Nb] using hd
        subst hda
        decide
      · have hnone : c5G.getNode k = none := by
          unfold Graph.getNode c5G
          rw [List.find?_cons_of_neg _ (by simp [h1]), List.find?_cons_of_neg _ (by simp [h2])]
          rfl
        rw [hnone] at h
        exact absurd h (by simp)
  · intro k h
    by_cases h1 : ("a" : String) = k
    · subst h1
      decide
    · by_cases h2 : ("b" : String) = k
      · subst h2
        decide
      · exfalso
        have hnone : c5G.getNode k = none := by
          unfold Graph.getNode c5G
          rw [List.find?_cons_of_neg _ (by simp [h1]), List.find?_cons_of_neg _ (by simp [h2])]
          rfl
        rw [hnone] at h
        exact absurd h (by simp)

end Agentic
